import Mathlib

/-!
Verification of the markdown-table holdings parser/updater of the
ai-investment-advisor repository.

Embedding conventions:
* Python strings are modelled as `List Char` (`Str`); Python's `str.strip`,
  `str.split`, `in`, `startswith`, `str.join` become explicit functions below.
* Python floats are modelled as exact unnormalized rationals `Q`
  (integer numerator over natural denominator, denominators kept positive by
  construction).  All arithmetic appearing in the code (`*`, `/ 10000`,
  comparisons, `f"{x:.2f}"` / `f"{x:.0f}"` rendering with round-half-to-even)
  is exact; binary floating point rounding error is deliberately abstracted
  away.  Decimal numerals (`float(s)` / `int(s)` on the table cells) are
  modelled for the decimal shapes `[+-]digits[.digits]`; the exotic inputs
  Python would additionally accept (`"1e3"`, `"nan"`, `"inf"`) are modelled as
  parse failures, which take the same fall-through path in the code.
* Python `dict` is an association list with insert-or-replace keeping the
  original insertion position, matching CPython semantics.
* Exceptions caught by the code (`try`/`except`) are modelled by `Option`
  results taking the same fallback branch; all embedded functions are total.
-/

namespace AIA

abbrev Str := List Char

/-- Whitespace characters stripped by Python's `str.strip()` (ASCII subset). -/
def isWs (c : Char) : Bool :=
  c == ' ' || c == '\t' || c == '\n' || c == '\r' || c == '\x0b' || c == '\x0c'

/-- Python `s.strip()`: drop leading and trailing whitespace. -/
def pyStrip (l : Str) : Str :=
  ((l.dropWhile isWs).reverse.dropWhile isWs).reverse

/-- Python `s.split(sep)` for a one-character separator: the list of chunks
between occurrences of `sep`; always nonempty, empty chunks kept. -/
def splitOnChar (sep : Char) : Str → List Str
  | [] => [[]]
  | c :: rest =>
    if c = sep then [] :: splitOnChar sep rest
    else
      match splitOnChar sep rest with
      | [] => [[c]]
      | p :: ps => (c :: p) :: ps

/-- Python `pat in s` (substring containment). -/
def containsSub (pat : Str) : Str → Bool
  | [] => pat.isPrefixOf []
  | c :: rest => pat.isPrefixOf (c :: rest) || containsSub pat rest

/-- Python `s.startswith("|")`. -/
def startsPipe : Str → Bool
  | '|' :: _ => true
  | _ => false

/-- Python `s.startswith(c)` for a one-character pattern. -/
def startsCh (s : Str) (c : Char) : Bool :=
  match s with
  | x :: _ => x == c
  | [] => false

/-- The common cell extraction `[c.strip() for c in s.split("|")[1:-1]]`. -/
def cellsOf (s : Str) : List Str :=
  (((splitOnChar '|' s).drop 1).dropLast).map pyStrip

/-- Python `" | ".join(cols)` (recursive form of the separator join). -/
def interc : List Str → Str
  | [] => []
  | [c] => c
  | c :: rest => c ++ ([' ', '|', ' '] : Str) ++ interc rest

/-- Row reconstruction `"| " + " | ".join(cols) + " |\n"`. -/
def joinRow (cols : List Str) : Str :=
  (['|', ' '] : Str) ++ interc cols ++ ([' ', '|', '\n'] : Str)

/-! ### Exact numbers (model of Python floats) -/

/-- Unnormalized rational: `num / den`.  All constructors used by the
embedding keep `den` positive. -/
structure Q where
  num : Int
  den : Nat
deriving DecidableEq, Repr

def Q.ofInt (n : Int) : Q := ⟨n, 1⟩

def Q.zero : Q := ⟨0, 1⟩

def Q.mul (a b : Q) : Q := ⟨a.num * b.num, a.den * b.den⟩

/-- Exact division (sign moved to the numerator, denominator kept natural). -/
def Q.div (a b : Q) : Q :=
  if 0 ≤ b.num then ⟨a.num * (b.den : Int), a.den * b.num.natAbs⟩
  else ⟨-(a.num * (b.den : Int)), a.den * b.num.natAbs⟩

/-- `a < b` by cross multiplication (valid for positive denominators). -/
def Q.lt (a b : Q) : Bool := a.num * (b.den : Int) < b.num * (a.den : Int)

/-- `a ≤ b` by cross multiplication (valid for positive denominators). -/
def Q.le (a b : Q) : Bool := a.num * (b.den : Int) ≤ b.num * (a.den : Int)

def Q.abs (a : Q) : Q := ⟨|a.num|, a.den⟩

/-- Round `num/den` half to even (Python's rounding of `f"{x:.nf}"`). -/
def Q.roundHE (q : Q) : Int :=
  if q.den = 0 then 0
  else
    let d : Int := (q.den : Int)
    let f : Int := q.num.fdiv d
    let r : Int := q.num - f * d
    if 2 * r < d then f
    else if d < 2 * r then f + 1
    else if f % 2 = 0 then f else f + 1

def digitCh (n : Nat) : Char :=
  if n = 0 then '0' else if n = 1 then '1' else if n = 2 then '2'
  else if n = 3 then '3' else if n = 4 then '4' else if n = 5 then '5'
  else if n = 6 then '6' else if n = 7 then '7' else if n = 8 then '8'
  else if n = 9 then '9' else '*'

/-- Decimal digits of a natural number, fuel-based so that it reduces in the
kernel (the fuel `n + 1` always suffices). -/
def natDigitsGo : Nat → Nat → Str → Str
  | 0, _, acc => acc
  | fuel + 1, n, acc =>
    if n = 0 then acc else natDigitsGo fuel (n / 10) (digitCh (n % 10) :: acc)

def natDigits (n : Nat) : Str :=
  if n = 0 then ['0'] else natDigitsGo (n + 1) n []

/-- Two-digit zero-padded rendering of `n < 100`. -/
def pad2 (n : Nat) : Str :=
  if n < 10 then '0' :: natDigits n else natDigits n

/-- Python `f"{x:.2f}"` on the exact value. -/
def formatF2 (q : Q) : Str :=
  let m : Nat := (Q.roundHE (Q.mul q.abs ⟨100, 1⟩)).toNat
  (if q.num < 0 then ['-'] else []) ++ natDigits (m / 100) ++ '.' :: pad2 (m % 100)

/-- Python `f"{x:.0f}"` on the exact value. -/
def formatF0 (q : Q) : Str :=
  let m : Nat := (Q.roundHE q.abs).toNat
  (if q.num < 0 then ['-'] else []) ++ natDigits m

/-! ### Decimal parsing (model of Python `float(s)` / `int(s)`) -/

def isDigit (c : Char) : Bool := '0' ≤ c && c ≤ '9'

def digitVal (c : Char) : Nat := c.toNat - '0'.toNat

/-- Value of an all-digit string (`none` on any non-digit; `some 0` on `[]`). -/
def digitsVal (s : Str) : Option Nat :=
  s.foldl
    (fun acc c =>
      match acc with
      | none => none
      | some v => if isDigit c then some (v * 10 + digitVal c) else none)
    (some 0)

/-- Unsigned decimal `digits[.digits]` (at least one digit somewhere). -/
def parseDec (r : Str) : Option Q :=
  match splitOnChar '.' r with
  | [ip] =>
    if ip = [] then none
    else
      match digitsVal ip with
      | none => none
      | some n => some ⟨(n : Int), 1⟩
  | [ip, fp] =>
    if ip = [] ∧ fp = [] then none
    else
      match digitsVal ip, digitsVal fp with
      | some n, some m => some ⟨(n * 10 ^ fp.length + m : Nat), 10 ^ fp.length⟩
      | _, _ => none
  | _ => none

/-- Model of Python `float(s)` restricted to decimal numerals. -/
def parseFloat (s : Str) : Option Q :=
  match s with
  | '-' :: r => (parseDec r).map (fun q => ⟨-q.num, q.den⟩)
  | '+' :: r => parseDec r
  | r => parseDec r

/-- Model of Python `int(s)`: optional sign followed by digits only. -/
def parseInt (s : Str) : Option Int :=
  match s with
  | '-' :: r =>
    if r = [] then none
    else
      match digitsVal r with
      | none => none
      | some n => some (-(n : Int))
  | '+' :: r =>
    if r = [] then none
    else
      match digitsVal r with
      | none => none
      | some n => some (n : Int)
  | r =>
    if r = [] then none
    else
      match digitsVal r with
      | none => none
      | some n => some (n : Int)

/-! ### Header tokens of the ledger tables -/

def tokenDaima : Str := "代码".toList
def tokenShizhi : Str := "市值".toList
def tokenShuliang : Str := "数量".toList
def tokenFene : Str := "份额".toList
def tokenWan : Str := "万".toList
def dash3 : Str := "---".toList
def dashStr : Str := "-".toList

/-! ### Price cache (`self.prices`) -/

/-- The slice of a fetched quote record used by `update_table_row`
(`price_data.get('price', 0)`; a missing key behaves as price `0`, which the
positivity check rejects, so only the price field is material). -/
structure Quote where
  price : Q
deriving DecidableEq, Repr

abbrev Cache := List (Str × Quote)

/-- Python `dict` read `d.get(k)` / `k in d`: first (unique) binding. -/
def dictGet {β : Type} (d : List (Str × β)) (k : Str) : Option β :=
  match d with
  | [] => none
  | (k', v) :: rest => if k' = k then some v else dictGet rest k

/-- Python `dict` write `d[k] = v`: replace in place, else append. -/
def dictInsert {β : Type} (d : List (Str × β)) (k : Str) (v : β) :
    List (Str × β) :=
  match d with
  | [] => [(k, v)]
  | (k', v') :: rest =>
    if k' = k then (k', v) :: rest else (k', v') :: dictInsert rest k v

/-- Modelled from the spec: `normalize_code` is imported from
`fetch_market_data.py`, which is not among the sources; §4.1 `padNumeric`
describes it as left-padding a purely numeric code with zeros to `width`
digits and returning non-numeric input unchanged. -/
def normalizeCode (code : Str) (width : Nat) : Str :=
  if code ≠ [] ∧ code.all isDigit = true then
    List.replicate (width - code.length) '0' ++ code
  else code

/-! ### The Ledger Updater (`scripts/update_holdings.py`) -/

/-- Index of the first element satisfying `p` (Python `list.index` /
first-match scans), structurally recursive. -/
def findIdxO {α : Type} (p : α → Bool) : List α → Option Nat
  | [] => none
  | a :: l => if p a then some 0 else (findIdxO p l).map (· + 1)

/-- Column-role resolution `headers.index("代码")` (first exact match). -/
def codeIdxOf (headers : List Str) : Option Nat :=
  findIdxO (fun h => h == tokenDaima) headers

/-- First header containing the market-value token `市值`. -/
def mvIdxOf (headers : List Str) : Option Nat :=
  findIdxO (fun h => containsSub tokenShizhi h) headers

/-- First header containing a quantity token (`数量` or `份额`). -/
def qtyIdxOf (headers : List Str) : Option Nat :=
  findIdxO (fun h => containsSub tokenShuliang h || containsSub tokenFene h) headers

/-- Quote lookup (`update_table_row` lines 176-188): the code as given, then
zero-padded to 6 digits, then to 5, short-circuiting on the first hit. -/
def lookupPrice (prices : Cache) (code : Str) : Option Quote :=
  match dictGet prices code with
  | some pd => some pd
  | none =>
    match dictGet prices (normalizeCode code 6) with
    | some pd => some pd
    | none => dictGet prices (normalizeCode code 5)

/-- The market-value formatting policy of `update_table_row` lines 205-220:
scale by 1/10000 under a `万` header, then 2 decimals below 100 and integer
rendering otherwise; always 2 decimals without the `万` annotation. -/
def formatMarketValue (mv : Q) (headerMv : Str) : Str :=
  let mv1 := if containsSub tokenWan headerMv then mv.div ⟨10000, 1⟩ else mv
  if containsSub tokenWan headerMv then
    if mv1.lt ⟨100, 1⟩ then formatF2 mv1 else formatF0 mv1
  else formatF2 mv1

/-- `HoldingsUpdater.update_table_row` (lines 134-240).  The `let` bindings of
the Python (`cols`, `code`, `qty_str`, `new_val`) are inlined. -/
def updateTableRow (prices : Cache) (line : Str) (headers : List Str) : Str :=
  if startsPipe (pyStrip line) = false ∨ containsSub dash3 line = true ∨
      containsSub tokenDaima line = true then line
  else if (cellsOf (pyStrip line)).length < headers.length then line
  else
    match codeIdxOf headers with
    | none => line
    | some codeIdx =>
      match mvIdxOf headers, qtyIdxOf headers with
      | some mvIdx, some qtyIdx =>
        (match lookupPrice prices ((cellsOf (pyStrip line)).getD codeIdx []) with
         | none => line
         | some pd =>
           if ((cellsOf (pyStrip line)).getD qtyIdx []).filter (fun c => ¬ c = ',') = dashStr ∨
               ((cellsOf (pyStrip line)).getD qtyIdx []).filter (fun c => ¬ c = ',') = [] then line
           else
             match parseFloat
                 (((cellsOf (pyStrip line)).getD qtyIdx []).filter (fun c => ¬ c = ',')) with
             | none => line
             | some qty =>
               if pd.price.le Q.zero then line
               else
                 joinRow ((cellsOf (pyStrip line)).set mvIdx
                   (formatMarketValue (pd.price.mul qty) (headers.getD mvIdx []))))
      | _, _ => line

/-- Scanner state of `HoldingsUpdater.run`: `current_headers` / `in_table`. -/
structure ScanState where
  headers : List Str
  inTable : Bool
deriving DecidableEq, Repr

/-- One loop iteration of `HoldingsUpdater.run` (lines 250-275): emitted line
and next scanner state. -/
def stepClassify (prices : Cache) (st : ScanState) (line : Str) :
    Str × ScanState :=
  if startsPipe (pyStrip line) = true ∧ containsSub dash3 (pyStrip line) = false ∧
      containsSub tokenDaima (pyStrip line) = true then
    (line, ⟨cellsOf (pyStrip line), true⟩)
  else if startsPipe (pyStrip line) = true ∧ containsSub dash3 (pyStrip line) = true then
    (line, st)
  else if st.inTable = true ∧ startsPipe (pyStrip line) = true then
    (updateTableRow prices line st.headers, st)
  else if startsPipe (pyStrip line) = false then
    (line, ⟨[], false⟩)
  else (line, st)

def runPass (prices : Cache) : ScanState → List Str → List Str
  | _, [] => []
  | st, l :: ls =>
    let r := stepClassify prices st l
    r.1 :: runPass prices r.2 ls

/-- The document pass of `HoldingsUpdater.run` with a fixed price cache
(I/O and price fetching stripped away). -/
def updaterRun (prices : Cache) (doc : List Str) : List Str :=
  runPass prices ⟨[], false⟩ doc

/-! ### The section parsers (`src/aia/parsers.py`)

The `re.search` calls only locate each section's block of consecutive
`|`-rows; the row loops are embedded here over that list of row strings
(each row as produced by `group(1).strip().split("\n")`). -/

/-- A parsed holding of the A-share / HK / fund loops. -/
structure HoldItem where
  name : Str
  cost : Q
  qty : Q
  buyDate : Str
deriving DecidableEq, Repr

abbrev HDict := List (Str × HoldItem)

def defaultBuyDate : Str := "2023-01-01".toList

/-- Loop body of the A-share rows (parsers.py lines 21-38): returns
`(isEtf, code, item)`, or `none` when the row is skipped. -/
def parseARow (row : Str) : Option (Bool × Str × HoldItem) :=
  let cols := cellsOf row
  if 5 ≤ cols.length then
    let padded := cols ++ List.replicate 5 []
    let code := padded.getD 0 []
    let name := padded.getD 1 []
    let costStr := padded.getD 3 []
    let qtyStr := padded.getD 4 []
    let rest := padded.drop 5
    match parseFloat costStr with
    | none => none
    | some cost =>
      let qtyOpt : Option Q :=
        if qtyStr ≠ [] ∧ qtyStr ≠ dashStr then
          match parseInt qtyStr with
          | none => none
          | some n => some (Q.ofInt n)
        else some Q.zero
      match qtyOpt with
      | none => none
      | some qty =>
        let buyDate :=
          if 1 < rest.length ∧ rest.getD 1 [] ≠ [] ∧ rest.getD 1 [] ≠ dashStr
          then rest.getD 1 [] else defaultBuyDate
        let isEtf := containsSub ("ETF".toList) name = true ∨
          startsCh code '5' = true ∨ startsCh code '1' = true
        some (if isEtf then true else false, code, ⟨name, cost, qty, buyDate⟩)
  else none

/-- Loop body of the HK rows (parsers.py lines 44-54). -/
def parseHKRow (row : Str) : Option (Str × HoldItem) :=
  let cols := cellsOf row
  if 5 ≤ cols.length then
    let padded := cols ++ List.replicate 5 []
    let code := padded.getD 0 []
    let name := padded.getD 1 []
    let costStr := padded.getD 3 []
    let qtyStr := padded.getD 4 []
    let rest := padded.drop 5
    match parseFloat costStr with
    | none => none
    | some cost =>
      let qtyOpt : Option Q :=
        if qtyStr ≠ [] ∧ qtyStr ≠ dashStr then
          match parseInt qtyStr with
          | none => none
          | some n => some (Q.ofInt n)
        else some Q.zero
      match qtyOpt with
      | none => none
      | some qty =>
        let buyDate :=
          if 1 < rest.length ∧ rest.getD 1 [] ≠ [] ∧ rest.getD 1 [] ≠ dashStr
          then rest.getD 1 [] else defaultBuyDate
        some (code, ⟨name, cost, qty, buyDate⟩)
  else none

/-- Loop body of the fund rows (parsers.py lines 59-74). -/
def parseFundRow (row : Str) : Option (Str × HoldItem) :=
  let cols := cellsOf row
  if 6 ≤ cols.length then
    let code := cols.getD 0 []
    let name := cols.getD 1 []
    let costStr := cols.getD 4 []
    let qtyStr := cols.getD 5 []
    let buyDate :=
      if 7 < cols.length ∧ cols.getD 7 [] ≠ [] ∧ cols.getD 7 [] ≠ dashStr
      then cols.getD 7 [] else defaultBuyDate
    match parseFloat costStr with
    | none => none
    | some cost =>
      let qtyOpt : Option Q :=
        if qtyStr ≠ [] ∧ qtyStr ≠ dashStr then parseFloat qtyStr
        else some Q.zero
      match qtyOpt with
      | none => none
      | some qty => some (code, ⟨name, cost, qty, buyDate⟩)
  else none

/-- A parsed US holding (parse_us_holdings_content row dict). -/
structure USItem where
  code : Str
  name : Str
  cost : Q
  qty : Q
  marketValue : Q
  price : Q
  buyDate : Str
deriving DecidableEq, Repr

/-- The market-value cell a US row reads (`mv_str`, parsers.py line 99). -/
def usMvCellOf (row : Str) : Str :=
  if 5 < (cellsOf row).length then (cellsOf row).getD 5 [] else dashStr

/-- The cost cell a US row reads (`cost_str`, parsers.py line 97). -/
def usCostCellOf (row : Str) : Str :=
  if 3 < (cellsOf row).length then (cellsOf row).getD 3 [] else dashStr

/-- The quantity cell a US row reads (`qty_str`, parsers.py line 98). -/
def usQtyCellOf (row : Str) : Str :=
  if 4 < (cellsOf row).length then (cellsOf row).getD 4 [] else dashStr

/-- The parsed cost of a US row (`cost`, parsers.py line 103). -/
def usCostOpt (row : Str) : Option Q :=
  if usCostCellOf row ≠ [] ∧ usCostCellOf row ≠ dashStr then
    parseFloat (usCostCellOf row)
  else some Q.zero

/-- The parsed quantity of a US row (`qty`, parsers.py line 104). -/
def usQtyOpt (row : Str) : Option Q :=
  if usQtyCellOf row ≠ [] ∧ usQtyCellOf row ≠ dashStr then
    parseFloat (usQtyCellOf row)
  else some Q.zero

/-- The buy date of a US row (`buy_date`, parsers.py line 100). -/
def usBuyDateOf (row : Str) : Str :=
  if 6 < (cellsOf row).length ∧ (cellsOf row).getD 6 [] ≠ dashStr then
    (cellsOf row).getD 6 []
  else defaultBuyDate

/-- Loop body of the US rows (parsers.py lines 91-127). -/
def parseUSRow (row : Str) : Option USItem :=
  if 5 ≤ (cellsOf row).length then
    match usCostOpt row with
    | none => none
    | some cost =>
      match usQtyOpt row with
      | none => none
      | some qty =>
        if usMvCellOf row ≠ [] ∧ usMvCellOf row ≠ dashStr then
          match parseFloat (usMvCellOf row) with
          | none => none
          | some v =>
            some ⟨(cellsOf row).getD 0 [], (cellsOf row).getD 1 [], cost, qty,
              v.mul ⟨10000, 1⟩,
              (if Q.lt Q.zero qty then (v.mul ⟨10000, 1⟩).div qty else Q.zero),
              usBuyDateOf row⟩
        else
          some ⟨(cellsOf row).getD 0 [], (cellsOf row).getD 1 [], cost, qty,
            Q.zero, Q.zero, usBuyDateOf row⟩
  else none

/-- The A-share section loop: classify each decodable row into the ETF or
stock dict (`holdings_etf`, `holdings_stock`). -/
def parseARows (rows : List Str) : HDict × HDict :=
  rows.foldl
    (fun acc row =>
      match parseARow row with
      | none => acc
      | some (isEtf, code, item) =>
        if isEtf then (dictInsert acc.1 code item, acc.2)
        else (acc.1, dictInsert acc.2 code item))
    ([], [])

def parseHKRows (rows : List Str) : HDict :=
  rows.foldl
    (fun acc row =>
      match parseHKRow row with
      | none => acc
      | some (code, item) => dictInsert acc code item)
    []

def parseFundRows (rows : List Str) : HDict :=
  rows.foldl
    (fun acc row =>
      match parseFundRow row with
      | none => acc
      | some (code, item) => dictInsert acc code item)
    []

def parseUSRows (rows : List Str) : List USItem :=
  rows.foldl
    (fun acc row =>
      match parseUSRow row with
      | none => acc
      | some item => acc ++ [item])
    []

/-! ### The Snapshot Exporter (`src/aia/exporter.py`) -/

/-- One entry of the exported `holdings` array; `market_price` /
`market_value_usd` are `none` when the JSON object omits those keys. -/
structure Holding where
  symbol : Str
  market : Str
  quantity : Q
  avgCostLocal : Q
  currency : Str
  marketPrice : Option Q
  marketValueUsd : Option Q
deriving DecidableEq, Repr

/-- `HoldingsExporter._determine_cn_market` (exporter.py lines 81-104),
including the unreachable re-check of a leading `6` after the fall-through. -/
def determineCnMarket (code : Str) : Str :=
  if startsCh code '6' = true ∨ startsCh code '9' = true then "CN_SH".toList
  else if startsCh code '0' = true ∨ startsCh code '3' = true then "CN_SZ".toList
  else if startsCh code '5' = true then "CN_SH".toList
  else if startsCh code '1' = true then "CN_SZ".toList
  else if startsCh code '6' = true then "CN_SH".toList
  else "CN_SZ".toList

def exportEntryCN (code : Str) (info : HoldItem) : Holding :=
  ⟨code, determineCnMarket code, info.qty, info.cost, "CNY".toList, none, none⟩

def exportEntryHK (code : Str) (info : HoldItem) : Holding :=
  ⟨code, "HK".toList, info.qty, info.cost, "HKD".toList, none, none⟩

def exportEntryUS (item : USItem) : Holding :=
  ⟨item.code, "US".toList, item.qty, item.cost, "USD".toList,
   some item.price, some item.marketValue⟩

/-- The `holdings_list` accumulation of `HoldingsExporter.export`
(lines 23-59): A-share ETF then stock entries, then HK, then US; the fund
dict is parsed but never emitted. -/
def exportHoldingsList (etf stock hk fund : HDict) (us : List USItem) :
    List Holding :=
  let l1 := etf.foldl (fun acc p => acc ++ [exportEntryCN p.1 p.2]) []
  let l2 := stock.foldl (fun acc p => acc ++ [exportEntryCN p.1 p.2]) l1
  let l3 := hk.foldl (fun acc p => acc ++ [exportEntryHK p.1 p.2]) l2
  let l4 := us.foldl (fun acc it => acc ++ [exportEntryUS it]) l3
  let _ := fund
  l4

/-- The quantity cell of the row under header index `qi`, commas removed. -/
def qtyStrAt (line : Str) (qi : Nat) : Str :=
  ((cellsOf (pyStrip line)).getD qi []).filter (fun c => ¬ c = ',')

/-- All the ways `update_table_row` can fall through to returning the input
row unchanged. -/
def rowFail (prices : Cache) (line : Str) (headers : List Str) : Prop :=
  (startsPipe (pyStrip line) = false ∨ containsSub dash3 line = true ∨
    containsSub tokenDaima line = true) ∨
  (cellsOf (pyStrip line)).length < headers.length ∨
  codeIdxOf headers = none ∨
  mvIdxOf headers = none ∨ qtyIdxOf headers = none ∨
  (∃ ci, codeIdxOf headers = some ci ∧
    lookupPrice prices ((cellsOf (pyStrip line)).getD ci []) = none) ∨
  (∃ qi, qtyIdxOf headers = some qi ∧
    (qtyStrAt line qi = dashStr ∨ qtyStrAt line qi = [])) ∨
  (∃ qi, qtyIdxOf headers = some qi ∧ parseFloat (qtyStrAt line qi) = none) ∨
  (∃ ci pd, codeIdxOf headers = some ci ∧
    lookupPrice prices ((cellsOf (pyStrip line)).getD ci []) = some pd ∧
    pd.price.le Q.zero = true)

/-- The scanner's header-line classification (`run` line 254). -/
def headerLineP (l : Str) : Prop :=
  startsPipe (pyStrip l) = true ∧ containsSub dash3 (pyStrip l) = false ∧
    containsSub tokenDaima (pyStrip l) = true

instance : DecidablePred headerLineP := fun l => by
  unfold headerLineP
  infer_instance

/-- A header schema resolves its market-value and quantity columns to
distinct cells (no header cell carries both tokens). -/
def mvqOK (headers : List Str) : Prop :=
  ∀ i j, mvIdxOf headers = some i → qtyIdxOf headers = some j → i ≠ j

/-- Characters that can never collide with the structural punctuation of a
rejoined row: not whitespace and not the cell delimiter. -/
def goodCh (c : Char) : Prop := isWs c = false ∧ c ≠ '|'

instance : DecidablePred goodCh := fun c => by
  unfold goodCh
  infer_instance

def digitDom : Str := ['0', '1', '2', '3', '4', '5', '6', '7', '8', '9', '*']

/-- The row-decoding failure modes named by the spec for the per-row update:
a non-table line, a separator or header-token line, too few cells, an
unresolvable code / market-value / quantity column, or an unparseable
quantity cell. -/
def rowDecodeFails (line : Str) (headers : List Str) : Prop :=
  startsPipe (pyStrip line) = false ∨ containsSub dash3 line = true ∨
  containsSub tokenDaima line = true ∨
  (cellsOf (pyStrip line)).length < headers.length ∨
  codeIdxOf headers = none ∨
  mvIdxOf headers = none ∨ qtyIdxOf headers = none ∨
  (∃ qi, qtyIdxOf headers = some qi ∧ parseFloat (qtyStrAt line qi) = none)

/-- Written from the spec's words (§4.6): CN market venue classified by the
code's first character: `6`/`9` → Shanghai, `0`/`3` → Shenzhen, `5` →
Shanghai, `1` → Shenzhen, anything else defaults to Shenzhen. -/
def specCnMarket (code : Str) : Str :=
  match code with
  | [] => "CN_SZ".toList
  | c :: _ =>
    if c = '6' ∨ c = '9' then "CN_SH".toList
    else if c = '0' ∨ c = '3' then "CN_SZ".toList
    else if c = '5' then "CN_SH".toList
    else if c = '1' then "CN_SZ".toList
    else "CN_SZ".toList

/-- Written from the spec's words (§4.3 numeric formatting policy): under a
ten-thousand-units header the value is scaled by 1/10000 and rendered with 2
decimals below 100 and as an integer otherwise; under an absolute-units
header it is always rendered with 2 decimals. -/
def specFormatPolicy (v : Q) (tenThousandUnits : Bool) : Str :=
  if tenThousandUnits = true then
    if (v.div ⟨10000, 1⟩).lt ⟨100, 1⟩ = true then formatF2 (v.div ⟨10000, 1⟩)
    else formatF0 (v.div ⟨10000, 1⟩)
  else formatF2 v


/-- The key sequence of an association-list dict. -/
def keysOf (d : HDict) : List Str := d.map (fun p => p.1)

/-! ## Lemma layer 1: strings, stripping, splitting, substring search -/

theorem dropWhile_ws_idem (l : Str) :
    (l.dropWhile isWs).dropWhile isWs = l.dropWhile isWs := by
  induction l with
  | nil => rfl
  | cons c t ih =>
    by_cases h : isWs c = true
    · simp [List.dropWhile_cons, h, ih]
    · simp [List.dropWhile_cons, h]

theorem dropWhile_eq_self_of (l : Str) (h : ∀ c ∈ l, isWs c = false) :
    l.dropWhile isWs = l := by
  cases l with
  | nil => rfl
  | cons c t => simp [List.dropWhile_cons, h c (by simp)]

theorem pyStrip_eq_self_of (l : Str) (h : ∀ c ∈ l, isWs c = false) :
    pyStrip l = l := by
  unfold pyStrip
  rw [dropWhile_eq_self_of l h, dropWhile_eq_self_of]
  · simp
  · intro c hc
    exact h c (by simpa using hc)

theorem dropWhile_ws_suffix (l : Str) : l.dropWhile isWs <:+ l :=
  ⟨l.takeWhile isWs, List.takeWhile_append_dropWhile isWs l⟩

theorem dropWhile_ws_of_self_prefix (l p : Str) (hl : l.dropWhile isWs = l)
    (hp : p <+: l) : p.dropWhile isWs = p := by
  cases p with
  | nil => rfl
  | cons c t =>
    cases l with
    | nil => exact absurd (List.eq_nil_of_prefix_nil hp) (by simp)
    | cons c' t' =>
      have hc : c = c' := by
        obtain ⟨u, hu⟩ := hp
        exact (by simpa using congrArg (fun x => x.headD ' ') hu.symm : c' = c).symm
      subst hc
      by_cases hw : isWs c = true
      · exfalso
        have := congrArg List.length hl
        rw [List.dropWhile_cons, if_pos hw] at this
        have hlen := (dropWhile_ws_suffix t').length_le
        simp at this
        omega
      · simp [List.dropWhile_cons, hw]

theorem rstrip_of_dropWhile (l : Str) :
    ((l.dropWhile isWs).reverse.dropWhile isWs).reverse <+: l.dropWhile isWs := by
  have h : (l.dropWhile isWs).reverse.dropWhile isWs <:+ (l.dropWhile isWs).reverse :=
    dropWhile_ws_suffix _
  have := h.reverse
  simpa using this

theorem pyStrip_lstrip_self (l : Str) : (pyStrip l).dropWhile isWs = pyStrip l := by
  unfold pyStrip
  exact dropWhile_ws_of_self_prefix _ _ (dropWhile_ws_idem l) (rstrip_of_dropWhile l)

theorem pyStrip_idem (l : Str) : pyStrip (pyStrip l) = pyStrip l := by
  conv_lhs => rw [pyStrip]
  rw [pyStrip_lstrip_self, pyStrip]
  simp [dropWhile_ws_idem]

theorem pyStrip_infix_self (l : Str) : pyStrip l <:+: l := by
  have h1 : pyStrip l <+: l.dropWhile isWs := rstrip_of_dropWhile l
  have h2 : l.dropWhile isWs <:+ l := dropWhile_ws_suffix l
  obtain ⟨u, hu⟩ := h1
  obtain ⟨v, hv⟩ := h2
  exact ⟨v, u, by rw [List.append_assoc, hu, hv]⟩

theorem mem_pyStrip (l : Str) (c : Char) (h : c ∈ pyStrip l) : c ∈ l :=
  (pyStrip_infix_self l).subset h

/-! `splitOnChar` facts -/

theorem splitOnChar_shape (sep : Char) (s : Str) :
    ∃ p ps, splitOnChar sep s = p :: ps ∧ p <+: s ∧
      ∀ piece ∈ ps, piece <:+: s := by
  induction s with
  | nil => exact ⟨[], [], rfl, List.nil_prefix, by simp⟩
  | cons c rest ih =>
    obtain ⟨p, ps, heq, hp, hps⟩ := ih
    by_cases hc : c = sep
    · refine ⟨[], p :: ps, by simp [splitOnChar, hc, heq], List.nil_prefix, ?_⟩
      intro piece hpiece
      have : piece <:+: rest := by
        rcases List.mem_cons.mp hpiece with h | h
        · subst h
          exact hp.isInfix
        · exact hps piece h
      exact List.infix_cons_iff.mpr (Or.inr this)
    · refine ⟨c :: p, ps, by simp [splitOnChar, hc, heq], ?_, ?_⟩
      · exact (List.cons_prefix_cons).mpr ⟨rfl, hp⟩
      · intro piece hpiece
        exact List.infix_cons_iff.mpr (Or.inr (hps piece hpiece))

theorem splitOnChar_ne_nil (sep : Char) (s : Str) : splitOnChar sep s ≠ [] := by
  obtain ⟨p, ps, heq, -, -⟩ := splitOnChar_shape sep s
  simp [heq]

theorem splitOnChar_no_sep (sep : Char) (s : Str) :
    ∀ piece ∈ splitOnChar sep s, sep ∉ piece := by
  induction s with
  | nil =>
    intro piece h
    simp [splitOnChar] at h
    simp [h]
  | cons c rest ih =>
    intro piece h
    by_cases hc : c = sep
    · simp [splitOnChar, hc] at h
      rcases h with h | h
      · simp [h]
      · exact ih piece h
    · obtain ⟨p, ps, heq, -, -⟩ := splitOnChar_shape sep rest
      simp [splitOnChar, hc, heq] at h
      rcases h with h | h
      · subst h
        intro hmem
        rcases List.mem_cons.mp hmem with h' | h'
        · exact hc h'.symm
        · exact ih p (by simp [heq]) h'
      · exact ih piece (by simp [heq, h])

theorem splitOnChar_infix_mem (sep : Char) (s : Str) :
    ∀ piece ∈ splitOnChar sep s, piece <:+: s := by
  obtain ⟨p, ps, heq, hp, hps⟩ := splitOnChar_shape sep s
  intro piece hpiece
  rw [heq] at hpiece
  rcases List.mem_cons.mp hpiece with h | h
  · subst h
    exact hp.isInfix
  · exact hps piece h

theorem splitOnChar_append (sep : Char) (m r : Str) (hm : sep ∉ m) :
    splitOnChar sep (m ++ sep :: r) = m :: splitOnChar sep r := by
  induction m with
  | nil => simp [splitOnChar]
  | cons c m' ih =>
    have hc : ¬ c = sep := by
      intro h
      exact hm (by simp [h])
    have ih' := ih (fun h => hm (by simp [h]))
    simp only [List.cons_append, splitOnChar, if_neg hc, List.append_eq, ih']

/-! `containsSub` is substring containment -/

theorem prefBool_iff (l₁ l₂ : Str) : l₁.isPrefixOf l₂ = true ↔ l₁ <+: l₂ := by
  induction l₁ generalizing l₂ with
  | nil => simp [List.isPrefixOf]
  | cons a t ih =>
    cases l₂ with
    | nil => simp [List.isPrefixOf]
    | cons b t' =>
      simp only [List.isPrefixOf, Bool.and_eq_true, beq_iff_eq, ih,
        List.cons_prefix_cons]

theorem containsSub_iff (p s : Str) : containsSub p s = true ↔ p <:+: s := by
  induction s with
  | nil =>
    simp only [containsSub, prefBool_iff]
    constructor
    · intro h
      exact h.isInfix
    · intro h
      have h2 := h.sublist
      rw [List.sublist_nil] at h2
      simp [h2]
  | cons c rest ih =>
    simp only [containsSub, Bool.or_eq_true, prefBool_iff, ih,
      List.infix_cons_iff]

theorem containsSub_false (p s : Str) (h : containsSub p s = false) :
    ¬ p <:+: s := by
  intro hinf
  rw [← containsSub_iff] at hinf
  rw [h] at hinf
  exact Bool.false_ne_true hinf

/-! ## Lemma layer 2: substring occurrences across joined rows -/

theorem prefix_append_cases {p a b : Str} (h : p <+: a ++ b) :
    p <+: a ∨ ∃ q, p = a ++ q ∧ q <+: b := by
  induction a generalizing p with
  | nil => exact Or.inr ⟨p, by simp, by simpa using h⟩
  | cons x a' ih =>
    cases p with
    | nil => exact Or.inl (List.nil_prefix)
    | cons c p' =>
      rw [List.cons_append, List.cons_prefix_cons] at h
      obtain ⟨hc, hp'⟩ := h
      rcases ih hp' with h' | ⟨q, hq, hqb⟩
      · exact Or.inl (List.cons_prefix_cons.mpr ⟨hc, h'⟩)
      · exact Or.inr ⟨q, by simp [hq, hc], hqb⟩

theorem suffix_cons_ext {p t : Str} (x : Char) (h : p <:+ t) : p <:+ x :: t := by
  obtain ⟨w, hw⟩ := h
  exact ⟨x :: w, by simp [hw]⟩

theorem infix_append_split {p a b : Str} (h : p <:+: a ++ b) :
    p <:+: a ∨ p <:+: b ∨
      ∃ p₁ p₂, p = p₁ ++ p₂ ∧ p₁ ≠ [] ∧ p₂ ≠ [] ∧ p₁ <:+ a ∧ p₂ <+: b := by
  induction a generalizing p with
  | nil => exact Or.inr (Or.inl (by simpa using h))
  | cons x a' ih =>
    rw [List.cons_append, List.infix_cons_iff] at h
    rcases h with h | h
    · cases p with
      | nil => exact Or.inl (List.nil_infix)
      | cons c p' =>
        rw [List.cons_prefix_cons] at h
        obtain ⟨hc, hp'⟩ := h
        rcases prefix_append_cases hp' with h' | ⟨q, hq, hqb⟩
        · exact Or.inl (List.cons_prefix_cons.mpr ⟨hc, h'⟩).isInfix
        · cases q with
          | nil =>
            have heq : (c :: p' : Str) = x :: a' := by simp [hq, hc]
            exact Or.inl (heq ▸ List.infix_refl (c :: p'))
          | cons y q' =>
            refine Or.inr (Or.inr ⟨x :: a', y :: q', by simp [hq, hc], by simp,
              by simp, List.suffix_refl _, hqb⟩)
    · rcases ih h with h' | h' | ⟨p₁, p₂, hp, h1, h2, hsuf, hpre⟩
      · exact Or.inl (List.infix_cons_iff.mpr (Or.inr h'))
      · exact Or.inr (Or.inl h')
      · exact Or.inr (Or.inr ⟨p₁, p₂, hp, h1, h2, suffix_cons_ext x hsuf, hpre⟩)

theorem bad_sep : ∀ c ∈ ([' ', '|', ' '] : Str), ¬ goodCh c := by decide

theorem bad_open : ∀ c ∈ (['|', ' '] : Str), ¬ goodCh c := by decide

theorem bad_close : ∀ c ∈ ([' ', '|', '\n'] : Str), ¬ goodCh c := by decide

theorem head_mem_of_ne {p : Str} (h : p ≠ []) : p.headD ' ' ∈ p := by
  cases p with
  | nil => exact absurd rfl h
  | cons c t => simp

theorem prefix_cons_head {p : Str} {c : Char} {l : Str} (h : p <+: c :: l)
    (hne : p ≠ []) : c ∈ p := by
  cases p with
  | nil => exact absurd rfl hne
  | cons y t =>
    rw [List.cons_prefix_cons] at h
    rw [← h.1]
    simp

theorem no_good_suffix_bad {p₁ : Str} {l : Str} (hne : p₁ ≠ [])
    (hg : ∀ c ∈ p₁, goodCh c) (hbad : ∀ c ∈ l, ¬ goodCh c) (h : p₁ <:+ l) :
    False := by
  have hmem : p₁.headD ' ' ∈ l := h.subset (head_mem_of_ne hne)
  exact hbad _ hmem (hg _ (head_mem_of_ne hne))

theorem no_good_infix_bad {p : Str} {l : Str} (hne : p ≠ [])
    (hg : ∀ c ∈ p, goodCh c) (hbad : ∀ c ∈ l, ¬ goodCh c) (h : p <:+: l) :
    False := by
  have hmem : p.headD ' ' ∈ l := h.subset (head_mem_of_ne hne)
  exact hbad _ hmem (hg _ (head_mem_of_ne hne))

theorem no_good_infix_interc {p : Str} (hne : p ≠ [])
    (hg : ∀ c ∈ p, goodCh c) :
    ∀ cols : List Str, (∀ cell ∈ cols, ¬ p <:+: cell) →
      ¬ p <:+: interc cols := by
  intro cols
  induction cols with
  | nil =>
    intro _ h
    have h2 := h.sublist
    rw [show interc [] = [] from rfl, List.sublist_nil] at h2
    exact hne h2
  | cons c rest ih =>
    intro hcols h
    cases rest with
    | nil => exact hcols c (by simp) (by simpa [interc] using h)
    | cons c' rest' =>
      rw [show interc (c :: c' :: rest') =
        c ++ (([' ', '|', ' '] : Str) ++ interc (c' :: rest')) by
          simp [interc]] at h
      rcases infix_append_split h with h' | h' | ⟨p₁, p₂, hp, h1, h2, hsuf, hpre⟩
      · exact hcols c (by simp) h'
      · rcases infix_append_split h' with h'' | h'' |
          ⟨p₁, p₂, hp, h1, h2, hsuf, hpre⟩
        · exact no_good_infix_bad hne hg bad_sep h''
        · exact ih (fun cell hc => hcols cell (by simp [hc])) h''
        · exact no_good_suffix_bad h1 (fun ch hc => hg ch (by simp [hp, hc]))
            bad_sep hsuf
      · have hsp : ' ' ∈ p₂ := prefix_cons_head hpre h2
        have := hg ' ' (by simp [hp, hsp])
        exact absurd this.1 (by decide)

theorem no_good_infix_joinRow {p : Str} (hne : p ≠ [])
    (hg : ∀ c ∈ p, goodCh c) (cols : List Str)
    (hcols : ∀ cell ∈ cols, ¬ p <:+: cell) : ¬ p <:+: joinRow cols := by
  intro h
  rw [show joinRow cols =
    (['|', ' '] : Str) ++ (interc cols ++ ([' ', '|', '\n'] : Str)) by
      simp [joinRow]] at h
  rcases infix_append_split h with h' | h' | ⟨p₁, p₂, hp, h1, h2, hsuf, hpre⟩
  · exact no_good_infix_bad hne hg bad_open h'
  · rcases infix_append_split h' with h'' | h'' | ⟨p₁, p₂, hp, h1, h2, hsuf, hpre⟩
    · exact no_good_infix_interc hne hg cols hcols h''
    · exact no_good_infix_bad hne hg bad_close h''
    · have hsp : ' ' ∈ p₂ := prefix_cons_head hpre h2
      have := hg ' ' (by simp [hp, hsp])
      exact absurd this.1 (by decide)
  · exact no_good_suffix_bad h1 (fun ch hc => hg ch (by simp [hp, hc]))
      bad_open hsuf

/-! ## Lemma layer 3: cell/row round-trip and formatter character facts -/

theorem pyStrip_cons_ws {x : Char} (y : Str) (h : isWs x = true) :
    pyStrip (x :: y) = pyStrip y := by
  unfold pyStrip
  rw [List.dropWhile_cons, if_pos h]

theorem dropWhile_ws_append_one (c : Str) :
    List.dropWhile isWs (c ++ ([' '] : Str)) = List.dropWhile isWs c ++ [' '] ∨
      (List.dropWhile isWs c = [] ∧
        List.dropWhile isWs (c ++ ([' '] : Str)) = []) := by
  induction c with
  | nil => exact Or.inr ⟨rfl, by decide⟩
  | cons x t ih =>
    by_cases h : isWs x = true
    · rcases ih with h' | ⟨h1, h2⟩
      · exact Or.inl (by simp [List.dropWhile_cons, h, h'])
      · exact Or.inr ⟨by simp [List.dropWhile_cons, h, h1],
          by simp [List.dropWhile_cons, h, h2]⟩
    · exact Or.inl (by simp [List.dropWhile_cons, h])

theorem pyStrip_append_ws (c : Str) :
    pyStrip (c ++ ([' '] : Str)) = pyStrip c := by
  unfold pyStrip
  rcases dropWhile_ws_append_one c with h | ⟨h1, h2⟩
  · rw [h]
    rw [show (List.dropWhile isWs c ++ ([' '] : Str)).reverse
        = ' ' :: (List.dropWhile isWs c).reverse by simp]
    rw [List.dropWhile_cons, if_pos (by decide : isWs ' ' = true)]
  · rw [h1, h2]

theorem pyStrip_pad (c : Str) : pyStrip (' ' :: c ++ ([' '] : Str)) = pyStrip c := by
  rw [show (' ' :: c ++ ([' '] : Str)) = ' ' :: (c ++ [' ']) by simp]
  rw [pyStrip_cons_ws _ (by decide), pyStrip_append_ws]

theorem pyStrip_joinRow (cols : List Str) :
    pyStrip (joinRow cols) =
      (['|', ' '] : Str) ++ interc cols ++ ([' ', '|'] : Str) := by
  unfold pyStrip joinRow
  rw [show ((['|', ' '] : Str) ++ interc cols ++ ([' ', '|', '\n'] : Str))
      = '|' :: (' ' :: (interc cols ++ ([' ', '|', '\n'] : Str))) by simp]
  rw [List.dropWhile_cons, if_neg (by decide : ¬ isWs '|' = true)]
  rw [show ('|' :: (' ' :: (interc cols ++ ([' ', '|', '\n'] : Str)))).reverse
      = '\n' :: ('|' :: (' ' :: ((interc cols).reverse ++ ([' ', '|'] : Str)))) by
        simp]
  rw [List.dropWhile_cons, if_pos (by decide : isWs '\n' = true)]
  rw [List.dropWhile_cons, if_neg (by decide : ¬ isWs '|' = true)]
  simp

theorem splitInter (cols : List Str) (hne : cols ≠ [])
    (hp : ∀ c ∈ cols, '|' ∉ c) :
    splitOnChar '|' (' ' :: interc cols ++ ([' ', '|'] : Str)) =
      cols.map (fun c => ' ' :: c ++ ([' '] : Str)) ++ [[]] := by
  induction cols with
  | nil => exact absurd rfl hne
  | cons c rest ih =>
    have hpc : ('|' : Char) ∉ (' ' :: c ++ ([' '] : Str)) := by
      intro h
      rcases List.mem_cons.mp h with h' | h'
      · cases h'
      · rcases List.mem_append.mp h' with h'' | h''
        · exact hp c (by simp) h''
        · simp at h''
    cases rest with
    | nil =>
      rw [show (' ' :: interc [c] ++ ([' ', '|'] : Str))
          = (' ' :: c ++ ([' '] : Str)) ++ '|' :: [] by simp [interc]]
      rw [splitOnChar_append '|' _ _ hpc]
      simp [splitOnChar]
    | cons c' rest' =>
      rw [show (' ' :: interc (c :: c' :: rest') ++ ([' ', '|'] : Str))
          = (' ' :: c ++ ([' '] : Str)) ++
            '|' :: (' ' :: interc (c' :: rest') ++ ([' ', '|'] : Str)) by
              simp [interc]]
      rw [splitOnChar_append '|' _ _ hpc]
      rw [ih (by simp) (fun x hx => hp x (by simp [hx]))]
      simp

theorem cells_roundtrip (cols : List Str) (hne : cols ≠ [])
    (hp : ∀ c ∈ cols, '|' ∉ c) (hs : ∀ c ∈ cols, pyStrip c = c) :
    cellsOf (pyStrip (joinRow cols)) = cols := by
  rw [pyStrip_joinRow]
  unfold cellsOf
  rw [show ((['|', ' '] : Str) ++ interc cols ++ ([' ', '|'] : Str))
      = '|' :: (' ' :: interc cols ++ ([' ', '|'] : Str)) by simp]
  rw [show splitOnChar '|' ('|' :: (' ' :: interc cols ++ ([' ', '|'] : Str)))
      = [] :: splitOnChar '|' (' ' :: interc cols ++ ([' ', '|'] : Str)) by
        simp [splitOnChar]]
  rw [splitInter cols hne hp]
  rw [show (([] : Str) :: (cols.map (fun c => ' ' :: c ++ ([' '] : Str)) ++ [[]])).drop 1
      = cols.map (fun c => ' ' :: c ++ ([' '] : Str)) ++ [[]] by simp]
  rw [show (cols.map (fun c => ' ' :: c ++ ([' '] : Str)) ++ [([] : Str)]).dropLast
      = cols.map (fun c => ' ' :: c ++ ([' '] : Str)) by simp]
  rw [List.map_map]
  have : ∀ x ∈ cols, (pyStrip ∘ fun c => ' ' :: c ++ ([' '] : Str)) x = id x := by
    intro x hx
    simp only [Function.comp_apply, id]
    rw [pyStrip_pad, hs x hx]
  rw [List.map_congr_left this]
  simp

/-! Formatter output characters -/

theorem digitCh_mem (n : Nat) : digitCh n ∈ digitDom := by
  unfold digitCh digitDom
  repeat' split
  all_goals decide

theorem natDigitsGo_mem (fuel : Nat) :
    ∀ n acc, (∀ c ∈ acc, c ∈ digitDom) →
      ∀ c ∈ natDigitsGo fuel n acc, c ∈ digitDom := by
  induction fuel with
  | zero => intro n acc hacc c hc; exact hacc c hc
  | succ fuel ih =>
    intro n acc hacc c hc
    unfold natDigitsGo at hc
    by_cases h : n = 0
    · rw [if_pos h] at hc
      exact hacc c hc
    · rw [if_neg h] at hc
      refine ih _ _ ?_ c hc
      intro x hx
      rcases List.mem_cons.mp hx with h' | h'
      · rw [h']; exact digitCh_mem _
      · exact hacc x h'

theorem natDigits_mem (n : Nat) : ∀ c ∈ natDigits n, c ∈ digitDom := by
  intro c hc
  unfold natDigits at hc
  by_cases h : n = 0
  · rw [if_pos h] at hc
    simp at hc
    simp [hc, digitDom]
  · rw [if_neg h] at hc
    exact natDigitsGo_mem _ _ _ (by simp) c hc

theorem pad2_mem (n : Nat) : ∀ c ∈ pad2 n, c ∈ digitDom := by
  intro c hc
  unfold pad2 at hc
  by_cases h : n < 10
  · rw [if_pos h] at hc
    rcases List.mem_cons.mp hc with h' | h'
    · simp [h', digitDom]
    · exact natDigits_mem n c h'
  · rw [if_neg h] at hc
    exact natDigits_mem n c hc

theorem formatF2_shape (q : Q) :
    ∃ sgn body, formatF2 q = sgn ++ body ∧ (sgn = [] ∨ sgn = ['-']) ∧
      ∀ c ∈ body, c ∈ digitDom ∨ c = '.' := by
  refine ⟨if q.num < 0 then ['-'] else [],
    natDigits ((Q.roundHE (Q.mul q.abs ⟨100, 1⟩)).toNat / 100) ++
      '.' :: pad2 ((Q.roundHE (Q.mul q.abs ⟨100, 1⟩)).toNat % 100), ?_, ?_, ?_⟩
  · unfold formatF2
    simp
  · by_cases h : q.num < 0 <;> simp [h]
  · intro c hc
    rcases List.mem_append.mp hc with h' | h'
    · exact Or.inl (natDigits_mem _ c h')
    · rcases List.mem_cons.mp h' with h'' | h''
      · exact Or.inr h''
      · exact Or.inl (pad2_mem _ c h'')

theorem formatF0_shape (q : Q) :
    ∃ sgn body, formatF0 q = sgn ++ body ∧ (sgn = [] ∨ sgn = ['-']) ∧
      ∀ c ∈ body, c ∈ digitDom ∨ c = '.' := by
  refine ⟨if q.num < 0 then ['-'] else [],
    natDigits (Q.roundHE q.abs).toNat, ?_, ?_, ?_⟩
  · unfold formatF0
    simp
  · by_cases h : q.num < 0 <;> simp [h]
  · intro c hc
    exact Or.inl (natDigits_mem _ c hc)

theorem dom_char_facts (c : Char) (h : c ∈ digitDom ∨ c = '.' ∨ c = '-') :
    isWs c = false ∧ c ≠ '|' ∧ c ≠ '代' ∧ c ≠ '码' := by
  rcases h with h | h | h
  · simp only [digitDom, List.mem_cons, List.not_mem_nil, or_false] at h
    rcases h with h|h|h|h|h|h|h|h|h|h|h <;> (rw [h]; exact ⟨by decide, by decide, by decide, by decide⟩)
  · rw [h]; exact ⟨by decide, by decide, by decide, by decide⟩
  · rw [h]; exact ⟨by decide, by decide, by decide, by decide⟩

theorem format_chars {q : Q} {v : Str}
    (hv : v = formatF2 q ∨ v = formatF0 q) :
    ∀ c ∈ v, c ∈ digitDom ∨ c = '.' ∨ c = '-' := by
  have hshape : ∃ sgn body, v = sgn ++ body ∧ (sgn = [] ∨ sgn = ['-']) ∧
      ∀ c ∈ body, c ∈ digitDom ∨ c = '.' := by
    rcases hv with h | h
    · rw [h]; exact formatF2_shape q
    · rw [h]; exact formatF0_shape q
  obtain ⟨sgn, body, hv', hsgn, hbody⟩ := hshape
  intro c hc
  rw [hv'] at hc
  rcases List.mem_append.mp hc with h' | h'
  · rcases hsgn with h'' | h''
    · rw [h''] at h'; cases h'
    · rw [h''] at h'
      rcases List.mem_cons.mp h' with h3 | h3
      · exact Or.inr (Or.inr h3)
      · cases h3
  · rcases hbody c h' with h'' | h''
    · exact Or.inl h''
    · exact Or.inr (Or.inl h'')

theorem format_strip {q : Q} {v : Str}
    (hv : v = formatF2 q ∨ v = formatF0 q) : pyStrip v = v := by
  refine pyStrip_eq_self_of v ?_
  intro c hc
  exact (dom_char_facts c (format_chars hv c hc)).1

theorem format_nopipe {q : Q} {v : Str}
    (hv : v = formatF2 q ∨ v = formatF0 q) : ('|' : Char) ∉ v := by
  intro h
  exact (dom_char_facts '|' (format_chars hv '|' h)).2.1 rfl

theorem format_no_daima {q : Q} {v : Str}
    (hv : v = formatF2 q ∨ v = formatF0 q) : ¬ tokenDaima <:+: v := by
  intro h
  have : ('代' : Char) ∈ v := h.subset (by decide)
  exact (dom_char_facts '代' (format_chars hv '代' this)).2.2.1 rfl

theorem format_no_dash3 {q : Q} {v : Str}
    (hv : v = formatF2 q ∨ v = formatF0 q) : ¬ dash3 <:+: v := by
  have hshape : ∃ sgn body, v = sgn ++ body ∧ (sgn = [] ∨ sgn = ['-']) ∧
      ∀ c ∈ body, c ∈ digitDom ∨ c = '.' := by
    rcases hv with h | h
    · rw [h]; exact formatF2_shape q
    · rw [h]; exact formatF0_shape q
  obtain ⟨sgn, body, hv', hsgn, hbody⟩ := hshape
  intro h
  rw [hv'] at h
  have hdashbody : ('-' : Char) ∉ body := by
    intro hm
    rcases hbody '-' hm with h' | h'
    · simp [digitDom] at h'
    · cases h'
  rcases infix_append_split h with h' | h' | ⟨p₁, p₂, hp, h1, h2, hsuf, hpre⟩
  · have hlen := h'.length_le
    rcases hsgn with h'' | h'' <;> rw [h''] at hlen <;> simp [dash3] at hlen
  · exact hdashbody (h'.subset (by decide))
  · have hd : ('-' : Char) ∈ p₂ := by
      have hsub : p₂ ⊆ dash3 := by
        intro x hx
        rw [show dash3 = p₁ ++ p₂ from hp]
        exact List.mem_append.mpr (Or.inr hx)
      have hhead : p₂.headD ' ' ∈ p₂ := head_mem_of_ne h2
      have hmem3 : p₂.headD ' ' ∈ dash3 := hsub hhead
      have heq : p₂.headD ' ' = '-' := by
        rw [show dash3 = (['-', '-', '-'] : Str) by decide] at hmem3
        simp only [List.mem_cons, List.not_mem_nil, or_false] at hmem3
        rcases hmem3 with h|h|h <;> exact h
      rw [← heq]
      exact hhead
    exact hdashbody (hpre.subset hd)

/-! Index search, update and cell access facts -/

theorem findIdxO_lt {α : Type} (p : α → Bool) (l : List α) (i : Nat)
    (h : findIdxO p l = some i) : i < l.length := by
  induction l generalizing i with
  | nil => cases h
  | cons a t ih =>
    unfold findIdxO at h
    by_cases hp : p a = true
    · rw [if_pos hp] at h
      cases h
      simp
    · rw [if_neg hp] at h
      rcases Option.map_eq_some'.mp h with ⟨j, hj, hji⟩
      have := ih j hj
      simp [← hji]
      omega

theorem findIdxO_get {α : Type} (p : α → Bool) (l : List α) (i : Nat) (d : α)
    (h : findIdxO p l = some i) : p (l.getD i d) = true := by
  induction l generalizing i with
  | nil => cases h
  | cons a t ih =>
    unfold findIdxO at h
    by_cases hp : p a = true
    · rw [if_pos hp] at h
      cases h
      simpa using hp
    · rw [if_neg hp] at h
      rcases Option.map_eq_some'.mp h with ⟨j, hj, hji⟩
      rw [← hji]
      simpa using ih j hj

theorem getD_set_ne {α : Type} (l : List α) (i j : Nat) (v d : α)
    (h : i ≠ j) : (l.set i v).getD j d = l.getD j d := by
  induction l generalizing i j with
  | nil => rfl
  | cons a t ih =>
    cases i with
    | zero =>
      cases j with
      | zero => exact absurd rfl h
      | succ j' => simp [List.set]
    | succ i' =>
      cases j with
      | zero => simp [List.set]
      | succ j' =>
        simp only [List.set, List.getD_cons_succ]
        exact ih i' j' (by omega)

theorem getD_set_self {α : Type} (l : List α) (i : Nat) (v d : α)
    (h : i < l.length) : (l.set i v).getD i d = v := by
  induction l generalizing i with
  | nil => simp at h
  | cons a t ih =>
    cases i with
    | zero => simp [List.set]
    | succ i' =>
      simp only [List.set, List.getD_cons_succ]
      exact ih i' (by simpa using h)

theorem mem_of_mem_set {α : Type} (l : List α) (i : Nat) (v c : α)
    (h : c ∈ l.set i v) : c ∈ l ∨ c = v := by
  induction l generalizing i with
  | nil => simp at h
  | cons a t ih =>
    cases i with
    | zero =>
      rcases List.mem_cons.mp h with h' | h'
      · exact Or.inr h'
      · exact Or.inl (by simp [h'])
    | succ i' =>
      rcases List.mem_cons.mp h with h' | h'
      · exact Or.inl (by simp [h'])
      · rcases ih i' h' with h'' | h''
        · exact Or.inl (by simp [h''])
        · exact Or.inr h''

/-! Cells of a split line -/

theorem cellsOf_strip (s : Str) : ∀ cell ∈ cellsOf s, pyStrip cell = cell := by
  intro cell h
  unfold cellsOf at h
  rcases List.mem_map.mp h with ⟨piece, -, hpiece⟩
  rw [← hpiece]
  exact pyStrip_idem piece

theorem cellsOf_mem_split (s : Str) :
    ∀ cell ∈ cellsOf s, ∃ piece ∈ splitOnChar '|' s, cell = pyStrip piece := by
  intro cell h
  unfold cellsOf at h
  rcases List.mem_map.mp h with ⟨piece, hmem, hpiece⟩
  have h1 : piece ∈ (splitOnChar '|' s).drop 1 := List.dropLast_subset _ hmem
  have h2 : piece ∈ splitOnChar '|' s := List.drop_subset 1 _ h1
  exact ⟨piece, h2, hpiece.symm⟩

theorem cellsOf_nopipe (s : Str) : ∀ cell ∈ cellsOf s, ('|' : Char) ∉ cell := by
  intro cell h hc
  rcases cellsOf_mem_split s cell h with ⟨piece, hmem, hcell⟩
  refine splitOnChar_no_sep '|' s piece hmem ?_
  rw [hcell] at hc
  exact mem_pyStrip piece '|' hc

theorem cellsOf_infix (s : Str) : ∀ cell ∈ cellsOf s, cell <:+: s := by
  intro cell h
  rcases cellsOf_mem_split s cell h with ⟨piece, hmem, hcell⟩
  rw [hcell]
  exact (pyStrip_infix_self piece).trans (splitOnChar_infix_mem '|' s piece hmem)

/-! ## Lemma layer 4: branch analysis of `update_table_row` -/

theorem codeIdx_header (headers : List Str) (ci : Nat)
    (h : codeIdxOf headers = some ci) : headers.getD ci [] = tokenDaima := by
  have := findIdxO_get _ headers ci [] h
  simpa using this

theorem codeIdx_ne_mvIdx (headers : List Str) (ci mi : Nat)
    (hc : codeIdxOf headers = some ci) (hm : mvIdxOf headers = some mi) :
    ci ≠ mi := by
  intro h
  subst h
  have h1 := codeIdx_header headers ci hc
  have h2 := findIdxO_get _ headers ci [] hm
  rw [h1] at h2
  exact absurd h2 (by decide)

theorem codeIdx_ne_qtyIdx (headers : List Str) (ci qi : Nat)
    (hc : codeIdxOf headers = some ci) (hq : qtyIdxOf headers = some qi) :
    ci ≠ qi := by
  intro h
  subst h
  have h1 := codeIdx_header headers ci hc
  have h2 := findIdxO_get _ headers ci [] hq
  rw [h1] at h2
  exact absurd h2 (by decide)

/-- Unfolding helper for the comma-stripped quantity cell. -/
theorem qtyStrAt_eq (line : Str) (qi : Nat) :
    ((cellsOf (pyStrip line)).getD qi []).filter (fun c => ¬ c = ',') =
      qtyStrAt line qi := rfl

/-- Central branch analysis: a row is either passed through unchanged for one
of the `rowFail` reasons, or rewritten with the formatted market value. -/
theorem updateRow_main (prices : Cache) (line : Str) (headers : List Str) :
    (updateTableRow prices line headers = line ∧ rowFail prices line headers) ∨
    ∃ ci mi qi pd qty,
      codeIdxOf headers = some ci ∧ mvIdxOf headers = some mi ∧
      qtyIdxOf headers = some qi ∧
      startsPipe (pyStrip line) = true ∧ containsSub dash3 line = false ∧
      containsSub tokenDaima line = false ∧
      headers.length ≤ (cellsOf (pyStrip line)).length ∧
      lookupPrice prices ((cellsOf (pyStrip line)).getD ci []) = some pd ∧
      qtyStrAt line qi ≠ dashStr ∧ qtyStrAt line qi ≠ [] ∧
      parseFloat (qtyStrAt line qi) = some qty ∧
      pd.price.le Q.zero = false ∧
      updateTableRow prices line headers =
        joinRow ((cellsOf (pyStrip line)).set mi
          (formatMarketValue (pd.price.mul qty) (headers.getD mi []))) := by
  by_cases h1 : startsPipe (pyStrip line) = false ∨ containsSub dash3 line = true ∨
      containsSub tokenDaima line = true
  · refine Or.inl ⟨?_, Or.inl h1⟩
    unfold updateTableRow
    rw [if_pos h1]
  by_cases h2 : (cellsOf (pyStrip line)).length < headers.length
  · refine Or.inl ⟨?_, Or.inr (Or.inl h2)⟩
    unfold updateTableRow
    rw [if_neg h1, if_pos h2]
  rcases hci : codeIdxOf headers with - | ci
  · refine Or.inl ⟨?_, Or.inr (Or.inr (Or.inl hci))⟩
    unfold updateTableRow
    rw [if_neg h1, if_neg h2]
    simp only [hci]
  rcases hmi : mvIdxOf headers with - | mi
  · refine Or.inl ⟨?_, Or.inr (Or.inr (Or.inr (Or.inl hmi)))⟩
    unfold updateTableRow
    rw [if_neg h1, if_neg h2]
    simp only [hci, hmi]
  rcases hqi : qtyIdxOf headers with - | qi
  · refine Or.inl ⟨?_, Or.inr (Or.inr (Or.inr (Or.inr (Or.inl hqi))))⟩
    unfold updateTableRow
    rw [if_neg h1, if_neg h2]
    simp only [hci, hmi, hqi]
  rcases hpd : lookupPrice prices ((cellsOf (pyStrip line)).getD ci []) with - | pd
  · refine Or.inl ⟨?_,
      Or.inr (Or.inr (Or.inr (Or.inr (Or.inr (Or.inl ⟨ci, hci, hpd⟩)))))⟩
    unfold updateTableRow
    rw [if_neg h1, if_neg h2]
    simp only [hci, hmi, hqi, hpd]
  by_cases h3 : qtyStrAt line qi = dashStr ∨ qtyStrAt line qi = []
  · refine Or.inl ⟨?_, Or.inr (Or.inr (Or.inr (Or.inr (Or.inr (Or.inr
      (Or.inl ⟨qi, hqi, h3⟩))))))⟩
    unfold updateTableRow
    rw [if_neg h1, if_neg h2]
    simp only [hci, hmi, hqi, hpd]
    rw [qtyStrAt_eq, if_pos h3]
  rcases hqv : parseFloat (qtyStrAt line qi) with - | qty
  · refine Or.inl ⟨?_, Or.inr (Or.inr (Or.inr (Or.inr (Or.inr (Or.inr (Or.inr
      (Or.inl ⟨qi, hqi, hqv⟩)))))))⟩
    unfold updateTableRow
    rw [if_neg h1, if_neg h2]
    simp only [hci, hmi, hqi, hpd]
    rw [qtyStrAt_eq, if_neg h3]
    simp only [hqv]
  by_cases h4 : pd.price.le Q.zero = true
  · refine Or.inl ⟨?_, Or.inr (Or.inr (Or.inr (Or.inr (Or.inr (Or.inr (Or.inr
      (Or.inr ⟨ci, pd, hci, hpd, h4⟩)))))))⟩
    unfold updateTableRow
    rw [if_neg h1, if_neg h2]
    simp only [hci, hmi, hqi, hpd]
    rw [qtyStrAt_eq, if_neg h3]
    simp only [hqv]
    rw [if_pos h4]
  have h3' := not_or.mp h3
  refine Or.inr ⟨ci, mi, qi, pd, qty, rfl, rfl, rfl, ?_, ?_, ?_,
    Nat.le_of_not_lt h2, hpd, h3'.1, h3'.2, hqv, by simpa using h4, ?_⟩
  · rcases hsp : startsPipe (pyStrip line) with - | -
    · exact absurd (Or.inl hsp) h1
    · rfl
  · rcases hd3 : containsSub dash3 line with - | -
    · rfl
    · exact absurd (Or.inr (Or.inl hd3)) h1
  · rcases hdm : containsSub tokenDaima line with - | -
    · rfl
    · exact absurd (Or.inr (Or.inr hdm)) h1
  · unfold updateTableRow
    rw [if_neg h1, if_neg h2]
    simp only [hci, hmi, hqi, hpd]
    rw [qtyStrAt_eq, if_neg h3]
    simp only [hqv]
    rw [if_neg h4]

/-! ## Lemma layer 5: per-row idempotence of `update_table_row` -/

theorem formatMarketValue_shape (mv : Q) (h : Str) :
    ∃ q', formatMarketValue mv h = formatF2 q' ∨
      formatMarketValue mv h = formatF0 q' := by
  unfold formatMarketValue
  by_cases hw : containsSub tokenWan h = true
  · by_cases hlt : (mv.div ⟨10000, 1⟩).lt ⟨100, 1⟩ = true
    · exact ⟨mv.div ⟨10000, 1⟩, Or.inl (by simp [hw, hlt])⟩
    · exact ⟨mv.div ⟨10000, 1⟩, Or.inr (by simp [hw, hlt])⟩
  · exact ⟨mv, Or.inl (by simp [hw])⟩

theorem codeIdxOf_ne_nil (headers : List Str) (ci : Nat)
    (h : codeIdxOf headers = some ci) : headers ≠ [] := by
  intro hnil
  rw [hnil] at h
  simp [codeIdxOf, findIdxO] at h

/-- The cells of a rewritten row satisfy the round-trip preconditions, and
re-splitting the rejoined row recovers them exactly. -/
theorem rewritten_roundtrip (line : Str) (mi : Nat) (v : Str)
    (hv : ∃ q', v = formatF2 q' ∨ v = formatF0 q')
    (hne : (cellsOf (pyStrip line)).set mi v ≠ []) :
    cellsOf (pyStrip (joinRow ((cellsOf (pyStrip line)).set mi v))) =
      (cellsOf (pyStrip line)).set mi v := by
  obtain ⟨q', hq⟩ := hv
  refine cells_roundtrip _ hne ?_ ?_
  · intro c hc
    rcases mem_of_mem_set _ _ _ _ hc with h' | h'
    · exact cellsOf_nopipe _ c h'
    · rw [h']
      exact format_nopipe hq
  · intro c hc
    rcases mem_of_mem_set _ _ _ _ hc with h' | h'
    · exact cellsOf_strip _ c h'
    · rw [h']
      exact format_strip hq

theorem updateRow_idem (prices : Cache) (line : Str) (headers : List Str)
    (hmq : ∀ i j, mvIdxOf headers = some i → qtyIdxOf headers = some j →
      i ≠ j) :
    updateTableRow prices (updateTableRow prices line headers) headers =
      updateTableRow prices line headers := by
  rcases updateRow_main prices line headers with ⟨heq, -⟩ |
    ⟨ci, mi, qi, pd, qty, hci, hmi, hqi, hsp, hd3, hdm, hlen, hpd, hq1, hq2,
      hqv, hpp, heq⟩
  · rw [heq]
    exact heq
  · rw [heq]
    have hvshape : ∃ q', formatMarketValue (pd.price.mul qty) (headers.getD mi []) =
        formatF2 q' ∨
        formatMarketValue (pd.price.mul qty) (headers.getD mi []) = formatF0 q' :=
      formatMarketValue_shape _ _
    have hhne : headers ≠ [] := codeIdxOf_ne_nil headers ci hci
    have hlen1 : 1 ≤ headers.length := by
      cases headers with
      | nil => exact absurd rfl hhne
      | cons a t => simp
    have hcne : (cellsOf (pyStrip line)).set mi
        (formatMarketValue (pd.price.mul qty) (headers.getD mi [])) ≠ [] := by
      intro h
      have hlencols := congrArg List.length h
      rw [List.length_set] at hlencols
      simp only [List.length_nil] at hlencols
      omega
    have hrt := rewritten_roundtrip line mi _ hvshape hcne
    rcases updateRow_main prices
        (joinRow ((cellsOf (pyStrip line)).set mi
          (formatMarketValue (pd.price.mul qty) (headers.getD mi [])))) headers with
      ⟨heq2, -⟩ |
      ⟨ci2, mi2, qi2, pd2, qty2, hci2, hmi2, hqi2, -, -, -, -, hpd2, -, -,
        hqv2, -, heq2⟩
    · exact heq2
    · have eci : ci2 = ci := by
        rw [hci] at hci2
        exact (Option.some_inj.mp hci2).symm
      have emi : mi2 = mi := by
        rw [hmi] at hmi2
        exact (Option.some_inj.mp hmi2).symm
      have eqi : qi2 = qi := by
        rw [hqi] at hqi2
        exact (Option.some_inj.mp hqi2).symm
      rw [eci] at hpd2
      rw [emi] at heq2
      rw [eqi] at hqv2
      have hcmne : ci ≠ mi := codeIdx_ne_mvIdx headers ci mi hci hmi
      have hqmne : mi ≠ qi := hmq mi qi hmi hqi
      have hcells_code : ((cellsOf (pyStrip line)).set mi
          (formatMarketValue (pd.price.mul qty) (headers.getD mi []))).getD ci [] =
          (cellsOf (pyStrip line)).getD ci [] :=
        getD_set_ne _ mi ci _ _ (fun h => hcmne h.symm)
      have epd : pd2 = pd := by
        rw [hrt, hcells_code, hpd] at hpd2
        exact (Option.some_inj.mp hpd2).symm
      have hqstr : qtyStrAt (joinRow ((cellsOf (pyStrip line)).set mi
          (formatMarketValue (pd.price.mul qty) (headers.getD mi [])))) qi =
          qtyStrAt line qi := by
        unfold qtyStrAt
        rw [hrt, getD_set_ne _ mi qi _ _ hqmne]
      have eqty : qty2 = qty := by
        rw [hqstr, hqv] at hqv2
        exact (Option.some_inj.mp hqv2).symm
      rw [heq2, hrt, epd, eqty, List.set_set]

/-! ## Lemma layer 6: the document pass and its idempotence -/

theorem mvqOK_nil : mvqOK [] := by
  intro i j h
  simp [mvIdxOf, findIdxO] at h

theorem startsPipe_joinRow (cols : List Str) :
    startsPipe (pyStrip (joinRow cols)) = true := by
  rw [pyStrip_joinRow]
  rfl

theorem containsSub_strip_false (p s : Str) (h : containsSub p s = false) :
    containsSub p (pyStrip s) = false := by
  by_contra hc
  have : containsSub p (pyStrip s) = true := by
    cases h2 : containsSub p (pyStrip s) with
    | false => exact absurd h2 hc
    | true => rfl
  have hinf : p <:+: pyStrip s := (containsSub_iff _ _).mp this
  exact containsSub_false p s h (hinf.trans (pyStrip_infix_self s))

theorem rewritten_no_pattern (line : Str) (mi : Nat) (v p : Str)
    (hp : p ≠ []) (hg : ∀ c ∈ p, goodCh c)
    (hline : containsSub p line = false) (hv : ¬ p <:+: v) :
    containsSub p (joinRow ((cellsOf (pyStrip line)).set mi v)) = false := by
  cases h : containsSub p (joinRow ((cellsOf (pyStrip line)).set mi v)) with
  | false => rfl
  | true =>
    exfalso
    have hinf := (containsSub_iff _ _).mp h
    refine no_good_infix_joinRow hp hg _ ?_ hinf
    intro cell hc hcinf
    rcases mem_of_mem_set _ _ _ _ hc with h' | h'
    · have h2 : cell <:+: pyStrip line := cellsOf_infix _ cell h'
      exact containsSub_false p line hline (hcinf.trans (h2.trans (pyStrip_infix_self line)))
    · rw [h'] at hcinf
      exact hv hcinf

theorem dash3_good : dash3 ≠ [] ∧ ∀ c ∈ dash3, goodCh c := by
  constructor
  · decide
  · decide

theorem daima_good : tokenDaima ≠ [] ∧ ∀ c ∈ tokenDaima, goodCh c := by
  constructor
  · decide
  · decide

theorem runPass_cons (prices : Cache) (st : ScanState) (l : Str)
    (ls : List Str) :
    runPass prices st (l :: ls) =
      (stepClassify prices st l).1 ::
        runPass prices (stepClassify prices st l).2 ls := rfl

/-- Re-classifying the emitted line from the same scanner state reproduces
the same emitted line and state. -/
theorem stepClassify_repeat (prices : Cache) (st : ScanState) (line : Str)
    (hst : mvqOK st.headers) :
    stepClassify prices st (stepClassify prices st line).1 =
      stepClassify prices st line := by
  by_cases hHdr : startsPipe (pyStrip line) = true ∧
      containsSub dash3 (pyStrip line) = false ∧
      containsSub tokenDaima (pyStrip line) = true
  · have h1 : (stepClassify prices st line).1 = line := by
      unfold stepClassify
      rw [if_pos hHdr]
    rw [h1]
  by_cases hSep : startsPipe (pyStrip line) = true ∧
      containsSub dash3 (pyStrip line) = true
  · have h1 : (stepClassify prices st line).1 = line := by
      unfold stepClassify
      rw [if_neg hHdr, if_pos hSep]
    rw [h1]
  by_cases hData : st.inTable = true ∧ startsPipe (pyStrip line) = true
  · have h1 : stepClassify prices st line =
        (updateTableRow prices line st.headers, st) := by
      unfold stepClassify
      rw [if_neg hHdr, if_neg hSep, if_pos hData]
    rw [h1]
    rcases updateRow_main prices line st.headers with ⟨heq, -⟩ |
      ⟨ci, mi, qi, pd, qty, hci, hmi, hqi, hsp, hd3, hdm, hlen, hpd, hq1, hq2,
        hqv, hpp, heq⟩
    · rw [heq]
      unfold stepClassify
      rw [if_neg hHdr, if_neg hSep, if_pos hData, heq]
    · have hidem := updateRow_idem prices line st.headers hst
      rw [heq] at hidem
      rw [heq]
      have hvshape := formatMarketValue_shape (pd.price.mul qty)
        (st.headers.getD mi [])
      have hd32 : containsSub dash3 (joinRow ((cellsOf (pyStrip line)).set mi
          (formatMarketValue (pd.price.mul qty) (st.headers.getD mi [])))) =
          false := by
        refine rewritten_no_pattern line mi _ dash3 dash3_good.1 dash3_good.2
          hd3 ?_
        obtain ⟨q', hq⟩ := hvshape
        exact format_no_dash3 hq
      have hdm2 : containsSub tokenDaima
          (joinRow ((cellsOf (pyStrip line)).set mi
          (formatMarketValue (pd.price.mul qty) (st.headers.getD mi [])))) =
          false := by
        refine rewritten_no_pattern line mi _ tokenDaima daima_good.1
          daima_good.2 hdm ?_
        obtain ⟨q', hq⟩ := hvshape
        exact format_no_daima hq
      have hsp2 := startsPipe_joinRow ((cellsOf (pyStrip line)).set mi
        (formatMarketValue (pd.price.mul qty) (st.headers.getD mi [])))
      have hd32s := containsSub_strip_false _ _ hd32
      have hdm2s := containsSub_strip_false _ _ hdm2
      unfold stepClassify
      rw [if_neg (by
        intro hcon
        rw [hcon.2.2] at hdm2s
        cases hdm2s)]
      rw [if_neg (by
        intro hcon
        rw [hcon.2] at hd32s
        cases hd32s)]
      rw [if_pos ⟨hData.1, hsp2⟩]
      rw [hidem]
  by_cases hPipe : startsPipe (pyStrip line) = false
  · have h1 : (stepClassify prices st line).1 = line := by
      unfold stepClassify
      rw [if_neg hHdr, if_neg hSep, if_neg hData, if_pos hPipe]
    rw [h1]
  · have h1 : (stepClassify prices st line).1 = line := by
      unfold stepClassify
      rw [if_neg hHdr, if_neg hSep, if_neg hData, if_neg hPipe]
    rw [h1]

/-- The scanner state after one step still satisfies the distinct-column
invariant, given that header lines of the document do. -/
theorem stepClassify_state_inv (prices : Cache) (st : ScanState) (l : Str)
    (hst : mvqOK st.headers)
    (hl : headerLineP l → mvqOK (cellsOf (pyStrip l))) :
    mvqOK ((stepClassify prices st l).2).headers := by
  unfold stepClassify
  by_cases hHdr : startsPipe (pyStrip l) = true ∧
      containsSub dash3 (pyStrip l) = false ∧
      containsSub tokenDaima (pyStrip l) = true
  · rw [if_pos hHdr]
    exact hl hHdr
  rw [if_neg hHdr]
  by_cases hSep : startsPipe (pyStrip l) = true ∧
      containsSub dash3 (pyStrip l) = true
  · rw [if_pos hSep]
    exact hst
  rw [if_neg hSep]
  by_cases hData : st.inTable = true ∧ startsPipe (pyStrip l) = true
  · rw [if_pos hData]
    exact hst
  rw [if_neg hData]
  by_cases hPipe : startsPipe (pyStrip l) = false
  · rw [if_pos hPipe]
    exact mvqOK_nil
  · rw [if_neg hPipe]
    exact hst

theorem runPass_idem (prices : Cache) (doc : List Str) :
    ∀ st : ScanState,
      (∀ l ∈ doc, headerLineP l → mvqOK (cellsOf (pyStrip l))) →
      mvqOK st.headers →
      runPass prices st (runPass prices st doc) = runPass prices st doc := by
  induction doc with
  | nil => intro st _ _; rfl
  | cons l ls ih =>
    intro st hdoc hst
    rw [runPass_cons prices st l ls]
    rw [runPass_cons prices st ((stepClassify prices st l).1)]
    rw [stepClassify_repeat prices st l hst]
    rw [ih (stepClassify prices st l).2
      (fun l' hl' => hdoc l' (by simp [hl']))
      (stepClassify_state_inv prices st l hst (hdoc l (by simp)))]

/-! ## Lemma layer 7: positive-path evaluation -/

/-- When every decode / lookup / parse / positivity condition holds, the row
is rewritten with the formatted market value. -/
theorem updateRow_rewrite_eval (prices : Cache) (line : Str)
    (headers : List Str) (ci mi qi : Nat) (pd : Quote) (qty : Q)
    (hci : codeIdxOf headers = some ci) (hmi : mvIdxOf headers = some mi)
    (hqi : qtyIdxOf headers = some qi)
    (hsp : startsPipe (pyStrip line) = true)
    (hd3 : containsSub dash3 line = false)
    (hdm : containsSub tokenDaima line = false)
    (hlen : headers.length ≤ (cellsOf (pyStrip line)).length)
    (hpd : lookupPrice prices ((cellsOf (pyStrip line)).getD ci []) = some pd)
    (hq1 : qtyStrAt line qi ≠ dashStr) (hq2 : qtyStrAt line qi ≠ [])
    (hqv : parseFloat (qtyStrAt line qi) = some qty)
    (hpp : pd.price.le Q.zero = false) :
    updateTableRow prices line headers =
      joinRow ((cellsOf (pyStrip line)).set mi
        (formatMarketValue (pd.price.mul qty) (headers.getD mi []))) := by
  rcases updateRow_main prices line headers with ⟨heq, hfail⟩ |
    ⟨ci', mi', qi', pd', qty', hci', hmi', hqi', -, -, -, -, hpd', -, -,
      hqv', -, heq'⟩
  · exfalso
    rcases hfail with (h | h | h) | h | h | h | h | ⟨ci', hci', hlk⟩ |
      ⟨qi', hqi', hcond⟩ | ⟨qi', hqi', hpf⟩ | ⟨ci', pd', hci', hpd', hle⟩
    · rw [hsp] at h; cases h
    · rw [hd3] at h; cases h
    · rw [hdm] at h; cases h
    · omega
    · rw [hci] at h; cases h
    · rw [hmi] at h; cases h
    · rw [hqi] at h; cases h
    · rw [hci] at hci'
      rw [← Option.some_inj.mp hci'] at hlk
      rw [hpd] at hlk
      cases hlk
    · rw [hqi] at hqi'
      rw [← Option.some_inj.mp hqi'] at hcond
      rcases hcond with h | h
      · exact hq1 h
      · exact hq2 h
    · rw [hqi] at hqi'
      rw [← Option.some_inj.mp hqi'] at hpf
      rw [hqv] at hpf
      cases hpf
    · rw [hci] at hci'
      rw [← Option.some_inj.mp hci'] at hpd'
      rw [hpd] at hpd'
      rw [← Option.some_inj.mp hpd'] at hle
      rw [hpp] at hle
      cases hle
  · rw [hci] at hci'
    rw [hmi] at hmi'
    rw [hqi] at hqi'
    rw [← Option.some_inj.mp hci'] at hpd'
    rw [← Option.some_inj.mp hqi'] at hqv'
    rw [hpd] at hpd'
    rw [hqv] at hqv'
    rw [← Option.some_inj.mp hmi'] at heq'
    rw [← Option.some_inj.mp hpd'] at heq'
    rw [← Option.some_inj.mp hqv'] at heq'
    exact heq'

/-- Any single positive condition failing yields the unchanged row. -/
theorem updateRow_unchanged_of_lookup_none (prices : Cache) (line : Str)
    (headers : List Str) (ci : Nat) (hci : codeIdxOf headers = some ci)
    (hlk : lookupPrice prices ((cellsOf (pyStrip line)).getD ci []) = none) :
    updateTableRow prices line headers = line := by
  rcases updateRow_main prices line headers with ⟨heq, -⟩ |
    ⟨ci', mi', qi', pd', qty', hci', -, -, -, -, -, -, hpd', -, -, -, -, -⟩
  · exact heq
  · exfalso
    rw [hci] at hci'
    rw [← Option.some_inj.mp hci'] at hpd'
    rw [hlk] at hpd'
    cases hpd'

theorem updateRow_unchanged_of_qty_placeholder (prices : Cache) (line : Str)
    (headers : List Str) (qi : Nat) (hqi : qtyIdxOf headers = some qi)
    (h : qtyStrAt line qi = dashStr ∨ qtyStrAt line qi = []) :
    updateTableRow prices line headers = line := by
  rcases updateRow_main prices line headers with ⟨heq, -⟩ |
    ⟨ci', mi', qi', pd', qty', -, -, hqi', -, -, -, -, -, hq1', hq2', -, -, -⟩
  · exact heq
  · exfalso
    rw [hqi] at hqi'
    have heqq := Option.some_inj.mp hqi'
    rcases h with h | h
    · exact hq1' (by rw [← heqq]; exact h)
    · exact hq2' (by rw [← heqq]; exact h)

theorem updateRow_unchanged_of_parse_none (prices : Cache) (line : Str)
    (headers : List Str) (qi : Nat) (hqi : qtyIdxOf headers = some qi)
    (h : parseFloat (qtyStrAt line qi) = none) :
    updateTableRow prices line headers = line := by
  rcases updateRow_main prices line headers with ⟨heq, -⟩ |
    ⟨ci', mi', qi', pd', qty', -, -, hqi', -, -, -, -, -, -, -, hqv', -, -⟩
  · exact heq
  · exfalso
    rw [hqi] at hqi'
    rw [← Option.some_inj.mp hqi'] at hqv'
    rw [h] at hqv'
    cases hqv'

theorem updateRow_unchanged_of_price_nonpos (prices : Cache) (line : Str)
    (headers : List Str) (ci : Nat) (pd : Quote)
    (hci : codeIdxOf headers = some ci)
    (hpd : lookupPrice prices ((cellsOf (pyStrip line)).getD ci []) = some pd)
    (h : pd.price.le Q.zero = true) :
    updateTableRow prices line headers = line := by
  rcases updateRow_main prices line headers with ⟨heq, -⟩ |
    ⟨ci', mi', qi', pd', qty', hci', -, -, -, -, -, -, hpd', -, -, -, hpp', -⟩
  · exact heq
  · exfalso
    rw [hci] at hci'
    rw [← Option.some_inj.mp hci'] at hpd'
    rw [hpd] at hpd'
    rw [← Option.some_inj.mp hpd'] at hpp'
    rw [h] at hpp'
    cases hpp'

/-! ## Claim C1 -/

/-- C1: every input line handed to the Ledger Updater's per-row update that
fails to decode — not table-shaped, too few cells, no resolvable code /
market-value / quantity column, or an unparseable quantity cell — is emitted
character-identical to the input.  Row-level processing is modelled as a
total function (every caught exception becomes the same `line` fallback), so
no row-level error can escape the updater. -/
theorem C1_undecodable_row_pass_through (prices : Cache) (line : Str)
    (headers : List Str) (h : rowDecodeFails line headers) :
    updateTableRow prices line headers = line := by
  rcases updateRow_main prices line headers with ⟨heq, -⟩ |
    ⟨ci, mi, qi, pd, qty, hci, hmi, hqi, hsp, hd3, hdm, hlen, hpd, hq1, hq2,
      hqv, hpp, heq⟩
  · exact heq
  · exfalso
    rcases h with h | h | h | h | h | h | h | ⟨qi', hqi', hpf⟩
    · rw [hsp] at h; cases h
    · rw [hd3] at h; cases h
    · rw [hdm] at h; cases h
    · omega
    · rw [hci] at h; cases h
    · rw [hmi] at h; cases h
    · rw [hqi] at h; cases h
    · rw [hqi] at hqi'
      rw [← Option.some_inj.mp hqi'] at hpf
      rw [hqv] at hpf
      cases hpf

/-- Witness for C1 at a concrete undecodable row (too few cells). -/
theorem C1_undecodable_row_pass_through_witness :
    rowDecodeFails ("| 1 |\n".toList)
      ["代码".toList, "数量".toList, "市值".toList] ∧
    updateTableRow [] ("| 1 |\n".toList)
      ["代码".toList, "数量".toList, "市值".toList] = "| 1 |\n".toList := by
  have hfail : rowDecodeFails ("| 1 |\n".toList)
      ["代码".toList, "数量".toList, "市值".toList] :=
    Or.inr (Or.inr (Or.inr (Or.inl (by decide))))
  exact ⟨hfail, C1_undecodable_row_pass_through [] _ _ hfail⟩

/-! ## Claim C3 -/

/-- C3 counterexample: a decodable row whose quantity cell is the literal
`"0"`, with a matching quote at positive price, is NOT emitted unchanged —
the market-value cell is rewritten to `0.00` (the code only skips the dash /
empty placeholders, not a zero quantity). -/
theorem C3_zero_quantity_counterexample :
    updateTableRow [("000001".toList, ⟨⟨10, 1⟩⟩)]
        ("| 000001 | 0 | 5 |\n".toList)
        ["代码".toList, "数量".toList, "市值".toList] =
      "| 000001 | 0 | 0.00 |\n".toList ∧
    ("| 000001 | 0 | 0.00 |\n".toList : Str) ≠ "| 000001 | 0 | 5 |\n".toList := by
  constructor
  · decide
  · decide

/-- C3 amended: for a decodable data row the updater rewrites the
market-value cell with `price * quantity` exactly when a quote is found, the
quantity cell is not a placeholder dash or empty and parses as a number, and
the quote price is positive; in every other case the original row is emitted
unchanged.  A quantity cell equal to the literal `"0"` parses to zero and IS
rewritten (with market value scaled from zero), rather than skipped. -/
theorem C3_rewrite_characterization (prices : Cache) (line : Str)
    (headers : List Str) (ci mi qi : Nat)
    (hci : codeIdxOf headers = some ci) (hmi : mvIdxOf headers = some mi)
    (hqi : qtyIdxOf headers = some qi)
    (hsp : startsPipe (pyStrip line) = true)
    (hd3 : containsSub dash3 line = false)
    (hdm : containsSub tokenDaima line = false)
    (hlen : headers.length ≤ (cellsOf (pyStrip line)).length) :
    (lookupPrice prices ((cellsOf (pyStrip line)).getD ci []) = none →
      updateTableRow prices line headers = line) ∧
    ∀ pd, lookupPrice prices ((cellsOf (pyStrip line)).getD ci []) = some pd →
      ((qtyStrAt line qi = dashStr ∨ qtyStrAt line qi = [] →
        updateTableRow prices line headers = line) ∧
      (parseFloat (qtyStrAt line qi) = none →
        updateTableRow prices line headers = line) ∧
      (pd.price.le Q.zero = true →
        updateTableRow prices line headers = line) ∧
      ∀ qty, parseFloat (qtyStrAt line qi) = some qty →
        qtyStrAt line qi ≠ dashStr → qtyStrAt line qi ≠ [] →
        pd.price.le Q.zero = false →
        updateTableRow prices line headers =
          joinRow ((cellsOf (pyStrip line)).set mi
            (formatMarketValue (pd.price.mul qty) (headers.getD mi [])))) := by
  refine ⟨fun hlk => updateRow_unchanged_of_lookup_none prices line headers ci
    hci hlk, fun pd hpd => ⟨?_, ?_, ?_, ?_⟩⟩
  · intro h
    exact updateRow_unchanged_of_qty_placeholder prices line headers qi hqi h
  · intro h
    exact updateRow_unchanged_of_parse_none prices line headers qi hqi h
  · intro h
    exact updateRow_unchanged_of_price_nonpos prices line headers ci pd hci
      hpd h
  · intro qty hqv hq1 hq2 hpp
    exact updateRow_rewrite_eval prices line headers ci mi qi pd qty hci hmi
      hqi hsp hd3 hdm hlen hpd hq1 hq2 hqv hpp

/-- Witness for C3 at the zero-quantity row: all rewrite conditions hold and
the characterization produces the rewritten row. -/
theorem C3_rewrite_characterization_witness :
    updateTableRow [("000001".toList, ⟨⟨10, 1⟩⟩)]
        ("| 000001 | 0 | 5 |\n".toList)
        ["代码".toList, "数量".toList, "市值".toList] =
      "| 000001 | 0 | 0.00 |\n".toList := by
  have h := (C3_rewrite_characterization [("000001".toList, ⟨⟨10, 1⟩⟩)]
    ("| 000001 | 0 | 5 |\n".toList)
    ["代码".toList, "数量".toList, "市值".toList] 0 2 1
    (by decide) (by decide) (by decide) (by decide) (by decide) (by decide)
    (by decide)).2 ⟨⟨10, 1⟩⟩ (by decide)
  have h2 := h.2.2.2 ⟨0, 1⟩ (by decide) (by decide) (by decide) (by decide)
  exact h2.trans (by decide)

/-! ## Claim C4 -/

/-- Bridge between the source's formatting branch and the spec-worded
policy. -/
theorem formatMarketValue_eq_spec (mv : Q) (h : Str) :
    formatMarketValue mv h = specFormatPolicy mv (containsSub tokenWan h) := by
  unfold formatMarketValue specFormatPolicy
  by_cases hw : containsSub tokenWan h = true
  · simp [hw]
  · have hw' : containsSub tokenWan h = false := by
      cases h2 : containsSub tokenWan h with
      | false => rfl
      | true => exact absurd h2 hw
    simp [hw']

/-- C4: whenever the updater writes a market-value cell, the written cell
follows the unit policy: under a `万` (ten-thousand-units) header the value
is divided by 10000 and rendered with 2 decimal places below 100 and as an
integer otherwise; without the annotation it is always rendered with 2
decimal places. -/
theorem C4_market_value_formatting (prices : Cache) (line : Str)
    (headers : List Str) (ci mi qi : Nat) (pd : Quote) (qty : Q)
    (hci : codeIdxOf headers = some ci) (hmi : mvIdxOf headers = some mi)
    (hqi : qtyIdxOf headers = some qi)
    (hsp : startsPipe (pyStrip line) = true)
    (hd3 : containsSub dash3 line = false)
    (hdm : containsSub tokenDaima line = false)
    (hlen : headers.length ≤ (cellsOf (pyStrip line)).length)
    (hpd : lookupPrice prices ((cellsOf (pyStrip line)).getD ci []) = some pd)
    (hq1 : qtyStrAt line qi ≠ dashStr) (hq2 : qtyStrAt line qi ≠ [])
    (hqv : parseFloat (qtyStrAt line qi) = some qty)
    (hpp : pd.price.le Q.zero = false) :
    (cellsOf (pyStrip (updateTableRow prices line headers))).getD mi [] =
      specFormatPolicy (pd.price.mul qty)
        (containsSub tokenWan (headers.getD mi [])) := by
  rw [updateRow_rewrite_eval prices line headers ci mi qi pd qty hci hmi hqi
    hsp hd3 hdm hlen hpd hq1 hq2 hqv hpp]
  have hhne : headers ≠ [] := codeIdxOf_ne_nil headers ci hci
  have hlen1 : 1 ≤ headers.length := by
    cases headers with
    | nil => exact absurd rfl hhne
    | cons a t => simp
  have hcne : (cellsOf (pyStrip line)).set mi
      (formatMarketValue (pd.price.mul qty) (headers.getD mi [])) ≠ [] := by
    intro h
    have hlencols := congrArg List.length h
    rw [List.length_set] at hlencols
    simp only [List.length_nil] at hlencols
    omega
  rw [rewritten_roundtrip line mi _
    (formatMarketValue_shape (pd.price.mul qty) (headers.getD mi [])) hcne]
  rw [getD_set_self]
  · exact formatMarketValue_eq_spec _ _
  · have := findIdxO_lt _ headers mi hmi
    omega

/-- Witness for C4: the spec scenario — US header `市值(万USD)`, price 170,
quantity 10 — renders the market-value cell as `"0.17"`. -/
theorem C4_market_value_formatting_witness :
    (cellsOf (pyStrip (updateTableRow [("AAPL".toList, ⟨⟨170, 1⟩⟩)]
        ("| AAPL | Apple | US | 150.00 | 10 | 0.00 | 2023-01-01 |\n".toList)
        ["代码".toList, "名称".toList, "市场".toList, "成本价".toList,
         "数量".toList, "市值(万USD)".toList, "买入日期".toList]))).getD 5 [] =
      "0.17".toList := by
  have h := C4_market_value_formatting [("AAPL".toList, ⟨⟨170, 1⟩⟩)]
    ("| AAPL | Apple | US | 150.00 | 10 | 0.00 | 2023-01-01 |\n".toList)
    ["代码".toList, "名称".toList, "市场".toList, "成本价".toList,
     "数量".toList, "市值(万USD)".toList, "买入日期".toList]
    0 5 4 ⟨⟨170, 1⟩⟩ ⟨10, 1⟩
    (by decide) (by decide) (by decide) (by decide) (by decide) (by decide)
    (by decide) (by decide) (by decide) (by decide) (by decide) (by decide)
  exact h.trans (by decide)

/-! ## Claim C2 -/

/-- C2 counterexample: when one header cell carries both the market-value
token `市值` and the quantity token `数量`, the rewrite feeds its own output
back into the quantity on the second pass, so the document pass is NOT
idempotent (`10 → 30.00 → 90.00`). -/
theorem C2_double_pass_counterexample :
    updaterRun [("000001".toList, ⟨⟨3, 1⟩⟩)]
        (updaterRun [("000001".toList, ⟨⟨3, 1⟩⟩)]
          ["| 代码 | 市值数量 |\n".toList, "|---|---|\n".toList,
           "| 000001 | 10 |\n".toList]) ≠
      updaterRun [("000001".toList, ⟨⟨3, 1⟩⟩)]
        ["| 代码 | 市值数量 |\n".toList, "|---|---|\n".toList,
         "| 000001 | 10 |\n".toList] := by
  decide

/-- C2 amended: the document pass is idempotent for a fixed price cache
provided every header line of the document resolves its market-value column
and its quantity column to distinct cells (no single header cell contains
both the `市值` token and a `数量`/`份额` token) — the counterexample above
shows the proviso is necessary. -/
theorem C2_double_pass_idempotent (prices : Cache) (doc : List Str)
    (h : ∀ l ∈ doc, headerLineP l → mvqOK (cellsOf (pyStrip l))) :
    updaterRun prices (updaterRun prices doc) = updaterRun prices doc := by
  unfold updaterRun
  exact runPass_idem prices doc ⟨[], false⟩ h mvqOK_nil

/-- Witness for C2 on a well-formed table (distinct quantity and
market-value columns), where the pass does rewrite the row. -/
theorem C2_double_pass_idempotent_witness :
    updaterRun [("000001".toList, ⟨⟨3, 1⟩⟩)]
        (updaterRun [("000001".toList, ⟨⟨3, 1⟩⟩)]
          ["| 代码 | 数量 | 市值 |\n".toList, "|---|---|---|\n".toList,
           "| 000001 | 10 | 5 |\n".toList]) =
      updaterRun [("000001".toList, ⟨⟨3, 1⟩⟩)]
        ["| 代码 | 数量 | 市值 |\n".toList, "|---|---|---|\n".toList,
         "| 000001 | 10 | 5 |\n".toList] := by
  refine C2_double_pass_idempotent _ _ ?_
  intro l hl hhdr
  simp only [List.mem_cons, List.not_mem_nil, or_false] at hl
  rcases hl with hl | hl | hl
  · subst hl
    intro i j hi hj
    rw [show mvIdxOf (cellsOf (pyStrip ("| 代码 | 数量 | 市值 |\n".toList))) =
      some 2 by decide] at hi
    rw [show qtyIdxOf (cellsOf (pyStrip ("| 代码 | 数量 | 市值 |\n".toList))) =
      some 1 by decide] at hj
    rw [← Option.some_inj.mp hi, ← Option.some_inj.mp hj]
    decide
  · subst hl
    exact absurd hhdr (by decide)
  · subst hl
    exact absurd hhdr (by decide)

/-! ## Claim C5 -/

/-- C5: the quote lookup tries exactly the raw code, then the code
zero-padded to 6 digits, then to 5, short-circuiting on the first hit; when
all three miss, the result is no-quote and the row is left unmodified.
(`normalize_code` lives in `fetch_market_data.py`, which is not among the
sources; it is modelled from the spec's §4.1 `padNumeric`.) -/
theorem C5_lookup_order (prices : Cache) (code : Str) :
    lookupPrice prices code =
      ((dictGet prices code).orElse (fun _ =>
        ((dictGet prices (normalizeCode code 6)).orElse (fun _ =>
          dictGet prices (normalizeCode code 5))))) ∧
    (∀ line headers ci, codeIdxOf headers = some ci →
      code = (cellsOf (pyStrip line)).getD ci [] →
      lookupPrice prices code = none →
      updateTableRow prices line headers = line) := by
  constructor
  · unfold lookupPrice
    cases h1 : dictGet prices code with
    | some pd => simp [Option.orElse]
    | none =>
      cases h2 : dictGet prices (normalizeCode code 6) with
      | some pd => simp [Option.orElse]
      | none => simp [Option.orElse]
  · intro line headers ci hci hcode hlk
    refine updateRow_unchanged_of_lookup_none prices line headers ci hci ?_
    rw [← hcode]
    exact hlk

/-- Witness for C5: a cache entry stored only under the 6-digit-padded form
`"000001"` is found for the raw cell `"1"`, and a complete miss leaves the
row unmodified. -/
theorem C5_lookup_order_witness :
    lookupPrice [("000001".toList, ⟨⟨10, 1⟩⟩)] ("1".toList) =
      some ⟨⟨10, 1⟩⟩ ∧
    updateTableRow [] ("| 000001 | 10 | 5 |\n".toList)
        ["代码".toList, "数量".toList, "市值".toList] =
      "| 000001 | 10 | 5 |\n".toList := by
  constructor
  · exact (C5_lookup_order [("000001".toList, ⟨⟨10, 1⟩⟩)] ("1".toList)).1.trans
      (by decide)
  · exact (C5_lookup_order [] ("000001".toList)).2
      ("| 000001 | 10 | 5 |\n".toList)
      ["代码".toList, "数量".toList, "市值".toList] 0
      (by decide) (by decide) (by decide)

/-! ## Claim C7 -/

/-- C7: in the single-pass scan, the active header schema is cleared exactly
by lines that do not begin with `|`: header lines replace it (and set the
in-table flag), separator rows and pipe-started rows leave it intact, and a
pipe-started row while in a table is the one case that rewrites, using the
currently active (possibly stale) schema. -/
theorem C7_scanner_state (prices : Cache) (st : ScanState) (line : Str) :
    (startsPipe (pyStrip line) = false →
      stepClassify prices st line = (line, ⟨[], false⟩)) ∧
    (startsPipe (pyStrip line) = true →
      containsSub dash3 (pyStrip line) = false →
      containsSub tokenDaima (pyStrip line) = true →
      stepClassify prices st line = (line, ⟨cellsOf (pyStrip line), true⟩)) ∧
    (startsPipe (pyStrip line) = true →
      containsSub dash3 (pyStrip line) = true →
      stepClassify prices st line = (line, st)) ∧
    (startsPipe (pyStrip line) = true →
      containsSub dash3 (pyStrip line) = false →
      containsSub tokenDaima (pyStrip line) = false →
      stepClassify prices st line =
        ((if st.inTable = true then updateTableRow prices line st.headers
          else line), st)) := by
  refine ⟨?_, ?_, ?_, ?_⟩
  · intro hsp
    unfold stepClassify
    rw [if_neg (by intro h; rw [h.1] at hsp; cases hsp)]
    rw [if_neg (by intro h; rw [h.1] at hsp; cases hsp)]
    rw [if_neg (by intro h; rw [h.2] at hsp; cases hsp)]
    rw [if_pos hsp]
  · intro hsp hd3 hdm
    unfold stepClassify
    rw [if_pos ⟨hsp, hd3, hdm⟩]
  · intro hsp hd3
    unfold stepClassify
    rw [if_neg (by intro h; rw [h.2.1] at hd3; cases hd3)]
    rw [if_pos ⟨hsp, hd3⟩]
  · intro hsp hd3 hdm
    unfold stepClassify
    rw [if_neg (by intro h; rw [h.2.2] at hdm; cases hdm)]
    rw [if_neg (by intro h; rw [h.2] at hd3; cases hd3)]
    by_cases ht : st.inTable = true
    · rw [if_pos ⟨ht, hsp⟩, if_pos ht]
    · rw [if_neg (by intro h; exact ht h.1)]
      rw [if_neg (by intro h; rw [h] at hsp; cases hsp)]
      rw [if_neg ht]

/-- Witness for C7: a section-marker line clears a live schema only because
it does not start with `|`, and a data row right after a table is decoded
under the previous table's still-active header. -/
theorem C7_scanner_state_witness :
    stepClassify [] ⟨["代码".toList], true⟩ ("## 美股持仓\n".toList) =
      ("## 美股持仓\n".toList, ⟨[], false⟩) ∧
    stepClassify [] ⟨["代码".toList], true⟩ ("| x |\n".toList) =
      (updateTableRow [] ("| x |\n".toList) ["代码".toList],
        ⟨["代码".toList], true⟩) := by
  constructor
  · exact (C7_scanner_state [] ⟨["代码".toList], true⟩
      ("## 美股持仓\n".toList)).1 (by decide)
  · have h := (C7_scanner_state [] ⟨["代码".toList], true⟩
      ("| x |\n".toList)).2.2.2 (by decide) (by decide) (by decide)
    rw [h]
    decide

/-! ## Lemma layer 8: parsers and dictionaries -/

theorem parseFloat_dash : parseFloat dashStr = none := by decide

theorem parseFloat_nil : parseFloat ([] : Str) = none := by decide

theorem dictGet_insert_self {β : Type} (d : List (Str × β)) (k : Str) (v : β) :
    dictGet (dictInsert d k v) k = some v := by
  induction d with
  | nil => simp [dictInsert, dictGet]
  | cons p rest ih =>
    by_cases h : p.1 = k
    · simp [dictInsert, dictGet, h]
    · simp [dictInsert, dictGet, h, ih]

theorem dictGet_insert_other {β : Type} (d : List (Str × β)) (k k' : Str)
    (v : β) (h : k' ≠ k) :
    dictGet (dictInsert d k v) k' = dictGet d k' := by
  have hkk : ¬ k = k' := fun hh => h hh.symm
  induction d with
  | nil => simp [dictInsert, dictGet, hkk]
  | cons p rest ih =>
    by_cases hp : p.1 = k
    · have h2 : ¬ p.1 = k' := by rw [hp]; exact hkk
      simp [dictInsert, dictGet, hp, h2, hkk]
    · by_cases hp' : p.1 = k'
      · simp [dictInsert, dictGet, hp, hp', h]
      · simp [dictInsert, dictGet, hp, hp', ih]

theorem keysOf_dictInsert (d : HDict) (k : Str) (v : HoldItem) :
    keysOf (dictInsert d k v) = keysOf d ∨
      (k ∉ keysOf d ∧ keysOf (dictInsert d k v) = keysOf d ++ [k]) := by
  induction d with
  | nil => exact Or.inr ⟨by simp [keysOf], by simp [dictInsert, keysOf]⟩
  | cons p rest ih =>
    by_cases hp : p.1 = k
    · exact Or.inl (by simp [dictInsert, keysOf, hp])
    · rcases ih with h | ⟨hk, h⟩
      · refine Or.inl ?_
        simp only [dictInsert, if_neg hp, keysOf, List.map_cons]
        rw [show (dictInsert rest k v).map (fun p => p.1) = keysOf rest by
          rw [← h]; rfl]
        rfl
      · refine Or.inr ⟨?_, ?_⟩
        · simp only [keysOf, List.map_cons, List.mem_cons]
          intro hcon
          rcases hcon with h' | h'
          · exact hp h'.symm
          · exact hk h'
        · simp only [dictInsert, if_neg hp, keysOf, List.map_cons]
          rw [show (dictInsert rest k v).map (fun p => p.1) =
            keysOf rest ++ [k] by rw [← h]; rfl]
          rfl

theorem nodup_dictInsert (d : HDict) (k : Str) (v : HoldItem)
    (h : (keysOf d).Nodup) : (keysOf (dictInsert d k v)).Nodup := by
  rcases keysOf_dictInsert d k v with heq | ⟨hk, heq⟩
  · rw [heq]; exact h
  · rw [heq]
    rw [List.nodup_append]
    refine ⟨h, by simp, ?_⟩
    intro a ha hb
    rw [List.mem_singleton] at hb
    rw [hb] at ha
    exact hk ha

theorem foldl_insert_nodup (g : Str → Option (Str × HoldItem)) :
    ∀ (rows : List Str) (acc : HDict), (keysOf acc).Nodup →
      (keysOf (rows.foldl
        (fun a row =>
          match g row with
          | none => a
          | some (k, v) => dictInsert a k v) acc)).Nodup := by
  intro rows
  induction rows with
  | nil => intro acc h; exact h
  | cons r rest ih =>
    intro acc h
    simp only [List.foldl_cons]
    cases hg : g r with
    | none => simp only [hg]; exact ih acc h
    | some p =>
      simp only [hg]
      exact ih (dictInsert acc p.1 p.2) (nodup_dictInsert acc p.1 p.2 h)

theorem parseHKRows_eq_fold (rows : List Str) :
    parseHKRows rows = rows.foldl
      (fun a row =>
        match parseHKRow row with
        | none => a
        | some (k, v) => dictInsert a k v) [] := rfl

theorem parseFundRows_eq_fold (rows : List Str) :
    parseFundRows rows = rows.foldl
      (fun a row =>
        match parseFundRow row with
        | none => a
        | some (k, v) => dictInsert a k v) [] := rfl

theorem parseARows_nodup_aux :
    ∀ (rows : List Str) (acc : HDict × HDict), (keysOf acc.1).Nodup →
      (keysOf acc.2).Nodup →
      (keysOf (rows.foldl
        (fun acc row =>
          match parseARow row with
          | none => acc
          | some (isEtf, code, item) =>
            if isEtf then (dictInsert acc.1 code item, acc.2)
            else (acc.1, dictInsert acc.2 code item)) acc).1).Nodup ∧
      (keysOf (rows.foldl
        (fun acc row =>
          match parseARow row with
          | none => acc
          | some (isEtf, code, item) =>
            if isEtf then (dictInsert acc.1 code item, acc.2)
            else (acc.1, dictInsert acc.2 code item)) acc).2).Nodup := by
  intro rows
  induction rows with
  | nil => intro acc h1 h2; exact ⟨h1, h2⟩
  | cons r rest ih =>
    intro acc h1 h2
    simp only [List.foldl_cons]
    cases hg : parseARow r with
    | none => simp only [hg]; exact ih acc h1 h2
    | some p =>
      obtain ⟨flag, code, item⟩ := p
      simp only [hg]
      by_cases he : flag = true
      · rw [if_pos he]
        exact ih _ (nodup_dictInsert acc.1 code item h1) h2
      · rw [if_neg he]
        exact ih _ h1 (nodup_dictInsert acc.2 code item h2)

theorem parseUSRows_aux (rows : List Str) :
    ∀ acc, rows.foldl
      (fun acc row =>
        match parseUSRow row with
        | none => acc
        | some item => acc ++ [item]) acc = acc ++ rows.filterMap parseUSRow := by
  induction rows with
  | nil => intro acc; simp
  | cons r rest ih =>
    intro acc
    simp only [List.foldl_cons]
    cases hg : parseUSRow r with
    | none => simp only [hg, List.filterMap_cons]; exact ih acc
    | some item =>
      simp only [hg, List.filterMap_cons]
      rw [ih (acc ++ [item])]
      simp

/-- Decomposition of a successfully decoded US row. -/
theorem parseUSRow_spec (row : Str) (item : USItem)
    (h : parseUSRow row = some item) :
    item.code = (cellsOf row).getD 0 [] ∧
    ((usMvCellOf row ≠ [] ∧ usMvCellOf row ≠ dashStr) →
      ∃ v, parseFloat (usMvCellOf row) = some v ∧
        item.marketValue = v.mul ⟨10000, 1⟩ ∧
        item.price = (if Q.lt Q.zero item.qty = true
          then (v.mul ⟨10000, 1⟩).div item.qty else Q.zero)) ∧
    ((usMvCellOf row = [] ∨ usMvCellOf row = dashStr) →
      item.marketValue = Q.zero ∧ item.price = Q.zero) := by
  unfold parseUSRow at h
  by_cases h5 : 5 ≤ (cellsOf row).length
  · rw [if_pos h5] at h
    cases hco : usCostOpt row with
    | none => rw [hco] at h; cases h
    | some cost =>
      simp only [hco] at h
      cases hqo : usQtyOpt row with
      | none => rw [hqo] at h; cases h
      | some qty =>
        simp only [hqo] at h
        by_cases hmv : usMvCellOf row ≠ [] ∧ usMvCellOf row ≠ dashStr
        · rw [if_pos hmv] at h
          cases hv : parseFloat (usMvCellOf row) with
          | none => rw [hv] at h; cases h
          | some v =>
            simp only [hv] at h
            cases h
            refine ⟨rfl, fun _ => ⟨v, rfl, rfl, rfl⟩, fun hcon => ?_⟩
            rcases hcon with h' | h'
            · exact absurd h' hmv.1
            · exact absurd h' hmv.2
        · rw [if_neg hmv] at h
          cases h
          exact ⟨rfl, fun hne => absurd hne hmv, fun _ => ⟨rfl, rfl⟩⟩
  · rw [if_neg h5] at h
    cases h

/-! ## Claim C9 -/

/-- C9: a decodable US-section row whose market-value cell `v` is neither a
dash nor blank decodes to `market_value = v * 10000` (absolute currency
units) with `market_price = market_value / quantity` when the quantity is
positive and `0` otherwise; a dash or blank cell decodes both to `0`; and
the exported holding carries exactly these values in `market_value_usd` /
`market_price`. -/
theorem C9_us_market_value_scaling (row : Str) (item : USItem)
    (h : parseUSRow row = some item) :
    (∀ v, usMvCellOf row ≠ [] → usMvCellOf row ≠ dashStr →
      parseFloat (usMvCellOf row) = some v →
      item.marketValue = v.mul ⟨10000, 1⟩ ∧
      item.price = (if Q.lt Q.zero item.qty = true
        then (v.mul ⟨10000, 1⟩).div item.qty else Q.zero)) ∧
    ((usMvCellOf row = [] ∨ usMvCellOf row = dashStr) →
      item.marketValue = Q.zero ∧ item.price = Q.zero) ∧
    (exportEntryUS item).marketValueUsd = some item.marketValue ∧
    (exportEntryUS item).marketPrice = some item.price := by
  obtain ⟨-, hsome, hzero⟩ := parseUSRow_spec row item h
  refine ⟨?_, hzero, rfl, rfl⟩
  intro v hne1 hne2 hv
  obtain ⟨v', hv', hmv, hpr⟩ := hsome ⟨hne1, hne2⟩
  rw [hv] at hv'
  rw [← Option.some_inj.mp hv'] at hmv hpr
  exact ⟨hmv, hpr⟩

/-- Witness for C9 at the Apple test row: `170.00` in the cell becomes a
market value of `1 700 000` and a price of `170 000` per share (exactly,
over the unnormalized denominators). -/
theorem C9_us_market_value_scaling_witness :
    (⟨"AAPL".toList, "Apple".toList, ⟨15000, 100⟩, ⟨10, 1⟩,
        ⟨170000000, 100⟩, ⟨170000000, 1000⟩,
        "2023-01-01".toList⟩ : USItem).marketValue =
      (⟨17000, 100⟩ : Q).mul ⟨10000, 1⟩ ∧
    (exportEntryUS ⟨"AAPL".toList, "Apple".toList, ⟨15000, 100⟩, ⟨10, 1⟩,
        ⟨170000000, 100⟩, ⟨170000000, 1000⟩,
        "2023-01-01".toList⟩).marketValueUsd = some ⟨170000000, 100⟩ := by
  have h := C9_us_market_value_scaling
    ("| AAPL | Apple | US | 150.00 | 10 | 170.00 | 2023-01-01 |".toList)
    ⟨"AAPL".toList, "Apple".toList, ⟨15000, 100⟩, ⟨10, 1⟩,
      ⟨170000000, 100⟩, ⟨170000000, 1000⟩, "2023-01-01".toList⟩
    (by decide)
  refine ⟨?_, h.2.2.1⟩
  exact (h.1 ⟨17000, 100⟩ (by decide) (by decide) (by decide)).1

/-! ## Claim C8 -/

theorem foldl_append_map {α β : Type} (f : α → β) :
    ∀ (l : List α) (acc : List β),
      l.foldl (fun a x => a ++ [f x]) acc = acc ++ l.map f := by
  intro l
  induction l with
  | nil => intro acc; simp
  | cons x rest ih =>
    intro acc
    simp only [List.foldl_cons, List.map_cons]
    rw [ih (acc ++ [f x])]
    simp

/-- C8: the snapshot export classifies every A-share code by its first
character (`6`/`9` → Shanghai, `0`/`3` → Shenzhen, `5` → Shanghai, `1` →
Shenzhen, default Shenzhen), assembles the holdings as A-share (ETF then
stock, CNY) followed by HK (market `HK`, HKD) and US (market `US`, USD)
entries, and preserves the original code — including any `RSU_` prefix —
as the symbol. -/
theorem C8_export_classification :
    (∀ code, determineCnMarket code = specCnMarket code) ∧
    (∀ etf stock hk fund us,
      exportHoldingsList etf stock hk fund us =
        (etf ++ stock).map (fun p => exportEntryCN p.1 p.2) ++
          hk.map (fun p => exportEntryHK p.1 p.2) ++ us.map exportEntryUS) ∧
    (∀ code info, (exportEntryCN code info).symbol = code ∧
      (exportEntryCN code info).market = determineCnMarket code ∧
      (exportEntryCN code info).currency = "CNY".toList) ∧
    (∀ code info, (exportEntryHK code info).symbol = code ∧
      (exportEntryHK code info).market = "HK".toList ∧
      (exportEntryHK code info).currency = "HKD".toList) ∧
    (∀ item, (exportEntryUS item).symbol = item.code ∧
      (exportEntryUS item).market = "US".toList ∧
      (exportEntryUS item).currency = "USD".toList) ∧
    (∀ row, (parseUSRow row).map USItem.code =
      (parseUSRow row).map (fun _ => (cellsOf row).getD 0 [])) := by
  refine ⟨?_, ?_, fun code info => ⟨rfl, rfl, rfl⟩, fun code info => ⟨rfl, rfl, rfl⟩,
    fun item => ⟨rfl, rfl, rfl⟩, ?_⟩
  · intro code
    cases code with
    | nil => rfl
    | cons c rest =>
      unfold determineCnMarket specCnMarket startsCh
      by_cases h6 : c = '6'
      · simp [h6]
      by_cases h9 : c = '9'
      · simp [h6, h9]
      by_cases h0 : c = '0'
      · simp [h6, h9, h0]
      by_cases h3 : c = '3'
      · simp [h6, h9, h0, h3]
      by_cases h5 : c = '5'
      · simp [h6, h9, h0, h3, h5]
      by_cases h1 : c = '1'
      · simp [h6, h9, h0, h3, h5, h1]
      simp [h6, h9, h0, h3, h5, h1]
  · intro etf stock hk fund us
    unfold exportHoldingsList
    simp only []
    rw [foldl_append_map, foldl_append_map, foldl_append_map, foldl_append_map]
    simp [List.map_append, List.append_assoc]
  · intro row
    cases h : parseUSRow row with
    | none => simp
    | some item =>
      simp only [Option.map_some']
      rw [(parseUSRow_spec row item h).1]

/-- Witness for C8 exercising the `RSU_`-preserving conjunct and the
classification scenarios. -/
theorem C8_export_classification_witness :
    determineCnMarket ("600519".toList) = specCnMarket ("600519".toList) ∧
    (parseUSRow ("| RSU_AMZN | Amazon | US | 0.00 | 50 | 130.00 | 2023-06-01 |\n".toList)).map
        USItem.code =
      some ("RSU_AMZN".toList) := by
  constructor
  · exact C8_export_classification.1 ("600519".toList)
  · rw [C8_export_classification.2.2.2.2.2
      ("| RSU_AMZN | Amazon | US | 0.00 | 50 | 130.00 | 2023-06-01 |\n".toList)]
    decide

/-! ## Claim C10 -/

/-- C10 counterexample: two decodable A-share rows sharing the code
`600519` — one whose name contains `ETF`, one without — land in the ETF and
the stock dict respectively, so the snapshot export emits the code twice
instead of letting the later row overwrite the earlier one. -/
theorem C10_duplicate_code_counterexample :
    (exportHoldingsList
        (parseARows ["| 600519 | X ETF | SH | 1.0 | 10 | - | - |".toList,
          "| 600519 | X | SH | 2.0 | 20 | - | - |".toList]).1
        (parseARows ["| 600519 | X ETF | SH | 1.0 | 10 | - | - |".toList,
          "| 600519 | X | SH | 2.0 | 20 | - | - |".toList]).2
        [] [] []).map (fun h => h.symbol) =
      ["600519".toList, "600519".toList] := by
  decide

/-- C10 amended: within each single parsed collection — the HK dict, the
fund dict, and each of the A-share ETF and stock dicts — codes are unique
and a later decodable row overwrites the earlier entry for the same code,
while the US section keeps every decodable row in document order; but a
code may appear in both A-share sub-dicts (and hence twice in the export)
when duplicate rows classify differently. -/
theorem C10_per_section_uniqueness :
    (∀ rows, (keysOf (parseHKRows rows)).Nodup) ∧
    (∀ rows, (keysOf (parseFundRows rows)).Nodup) ∧
    (∀ rows, (keysOf (parseARows rows).1).Nodup ∧
      (keysOf (parseARows rows).2).Nodup) ∧
    (∀ rows r k v, parseHKRow r = some (k, v) →
      dictGet (parseHKRows (rows ++ [r])) k = some v) ∧
    (∀ rows r k v, parseFundRow r = some (k, v) →
      dictGet (parseFundRows (rows ++ [r])) k = some v) ∧
    (∀ rows r k v, parseARow r = some (true, k, v) →
      dictGet (parseARows (rows ++ [r])).1 k = some v) ∧
    (∀ rows r k v, parseARow r = some (false, k, v) →
      dictGet (parseARows (rows ++ [r])).2 k = some v) ∧
    (∀ rows, parseUSRows rows = rows.filterMap parseUSRow) := by
  refine ⟨?_, ?_, ?_, ?_, ?_, ?_, ?_, ?_⟩
  · intro rows
    rw [parseHKRows_eq_fold]
    exact foldl_insert_nodup parseHKRow rows [] (by simp [keysOf])
  · intro rows
    rw [parseFundRows_eq_fold]
    exact foldl_insert_nodup parseFundRow rows [] (by simp [keysOf])
  · intro rows
    exact parseARows_nodup_aux rows ([], []) (by simp [keysOf]) (by simp [keysOf])
  · intro rows r k v h
    unfold parseHKRows
    rw [List.foldl_append]
    simp only [List.foldl_cons, List.foldl_nil, h]
    exact dictGet_insert_self _ k v
  · intro rows r k v h
    unfold parseFundRows
    rw [List.foldl_append]
    simp only [List.foldl_cons, List.foldl_nil, h]
    exact dictGet_insert_self _ k v
  · intro rows r k v h
    unfold parseARows
    rw [List.foldl_append]
    simp only [List.foldl_cons, List.foldl_nil, h]
    rw [if_pos trivial]
    exact dictGet_insert_self _ k v
  · intro rows r k v h
    unfold parseARows
    rw [List.foldl_append]
    simp only [List.foldl_cons, List.foldl_nil, h]
    rw [if_neg (by decide)]
    exact dictGet_insert_self _ k v
  · intro rows
    unfold parseUSRows
    rw [parseUSRows_aux rows []]
    simp

/-- Witness for C10: a later A-share ETF row for `510300` overwrites the
earlier entry in the ETF dict, a later A-share stock row for `600519`
overwrites the earlier entry in the stock dict, and a later HK row for
`00700` overwrites the earlier parsed entry. -/
theorem C10_per_section_uniqueness_witness :
    dictGet (parseARows
        (["| 510300 | A ETF | SH | 1.0 | 10 | - | - |".toList] ++
          ["| 510300 | B ETF | SH | 2.0 | 20 | - | - |".toList])).1
        ("510300".toList) =
      some ⟨"B ETF".toList, ⟨20, 10⟩, ⟨20, 1⟩, "2023-01-01".toList⟩ ∧
    dictGet (parseARows
        (["| 600519 | A | SH | 1.0 | 10 | - | - |".toList] ++
          ["| 600519 | B | SH | 2.0 | 20 | - | - |".toList])).2
        ("600519".toList) =
      some ⟨"B".toList, ⟨20, 10⟩, ⟨20, 1⟩, "2023-01-01".toList⟩ ∧
    dictGet (parseHKRows
        (["| 00700 | A | HK | 1.0 | 10 | - | - |".toList] ++
          ["| 00700 | B | HK | 2.0 | 20 | - | - |".toList])) ("00700".toList) =
      some ⟨"B".toList, ⟨20, 10⟩, ⟨20, 1⟩, "2023-01-01".toList⟩ := by
  refine ⟨?_, ?_, ?_⟩
  · exact C10_per_section_uniqueness.2.2.2.2.2.1
      ["| 510300 | A ETF | SH | 1.0 | 10 | - | - |".toList]
      ("| 510300 | B ETF | SH | 2.0 | 20 | - | - |".toList)
      ("510300".toList)
      ⟨"B ETF".toList, ⟨20, 10⟩, ⟨20, 1⟩, "2023-01-01".toList⟩
      (by decide)
  · exact C10_per_section_uniqueness.2.2.2.2.2.2.1
      ["| 600519 | A | SH | 1.0 | 10 | - | - |".toList]
      ("| 600519 | B | SH | 2.0 | 20 | - | - |".toList)
      ("600519".toList)
      ⟨"B".toList, ⟨20, 10⟩, ⟨20, 1⟩, "2023-01-01".toList⟩
      (by decide)
  · exact C10_per_section_uniqueness.2.2.2.1
      ["| 00700 | A | HK | 1.0 | 10 | - | - |".toList]
      ("| 00700 | B | HK | 2.0 | 20 | - | - |".toList)
      ("00700".toList) ⟨"B".toList, ⟨20, 10⟩, ⟨20, 1⟩, "2023-01-01".toList⟩
      (by decide)

/-! ## Claim C6 -/

/-- C6 counterexample: an A-share row whose cost-basis cell is the
placeholder dash is DROPPED by the parser (the `float` call on the cost has
no placeholder guard and the `ValueError` skips the row), not retained with
cost 0. -/
theorem C6_dash_cost_counterexample :
    parseARow ("| 600519 | X | SH | - | 10 | - | - |".toList) = none ∧
    parseARows ["| 600519 | X | SH | - | 10 | - | - |".toList] = ([], []) := by
  constructor
  · decide
  · decide

/-- C6 amended: a placeholder-dash or empty quantity cell parses to 0 with
the row retained in all four sections (given the other required cells
decode), and a placeholder cost-basis cell parses to 0 with the row
retained in the US section only; in the A-share, HK and fund sections a
dash or empty cost-basis cell fails the float conversion and the row is
dropped. -/
theorem C6_placeholder_coercion :
    (∀ row cost, 5 ≤ (cellsOf row).length →
      parseFloat ((cellsOf row ++ List.replicate 5 []).getD 3 []) = some cost →
      ((cellsOf row ++ List.replicate 5 []).getD 4 [] = dashStr ∨
        (cellsOf row ++ List.replicate 5 []).getD 4 [] = []) →
      (parseARow row).map (fun p => p.2.2.qty) = some Q.zero) ∧
    (∀ row cost, 5 ≤ (cellsOf row).length →
      parseFloat ((cellsOf row ++ List.replicate 5 []).getD 3 []) = some cost →
      ((cellsOf row ++ List.replicate 5 []).getD 4 [] = dashStr ∨
        (cellsOf row ++ List.replicate 5 []).getD 4 [] = []) →
      (parseHKRow row).map (fun p => p.2.qty) = some Q.zero) ∧
    (∀ row cost, 6 ≤ (cellsOf row).length →
      parseFloat ((cellsOf row).getD 4 []) = some cost →
      ((cellsOf row).getD 5 [] = dashStr ∨ (cellsOf row).getD 5 [] = []) →
      (parseFundRow row).map (fun p => p.2.qty) = some Q.zero) ∧
    (∀ row cost, 5 ≤ (cellsOf row).length →
      usCostOpt row = some cost →
      (usMvCellOf row = dashStr ∨ usMvCellOf row = [] ∨
        ∃ v, parseFloat (usMvCellOf row) = some v) →
      (usQtyCellOf row = dashStr ∨ usQtyCellOf row = []) →
      (parseUSRow row).map USItem.qty = some Q.zero) ∧
    (∀ row, 5 ≤ (cellsOf row).length →
      (∃ q, usQtyOpt row = some q) →
      (usMvCellOf row = dashStr ∨ usMvCellOf row = [] ∨
        ∃ v, parseFloat (usMvCellOf row) = some v) →
      (usCostCellOf row = dashStr ∨ usCostCellOf row = []) →
      (parseUSRow row).map USItem.cost = some Q.zero) ∧
    (∀ row, 5 ≤ (cellsOf row).length →
      ((cellsOf row ++ List.replicate 5 []).getD 3 [] = dashStr ∨
        (cellsOf row ++ List.replicate 5 []).getD 3 [] = []) →
      parseARow row = none) ∧
    (∀ row, 5 ≤ (cellsOf row).length →
      ((cellsOf row ++ List.replicate 5 []).getD 3 [] = dashStr ∨
        (cellsOf row ++ List.replicate 5 []).getD 3 [] = []) →
      parseHKRow row = none) ∧
    (∀ row, 6 ≤ (cellsOf row).length →
      ((cellsOf row).getD 4 [] = dashStr ∨ (cellsOf row).getD 4 [] = []) →
      parseFundRow row = none) := by
  refine ⟨?_, ?_, ?_, ?_, ?_, ?_, ?_, ?_⟩
  · intro row cost h5 hcost hqty
    unfold parseARow
    simp only []
    rw [if_pos h5]
    simp only [hcost]
    rw [if_neg (fun hcon => by
      rcases hqty with h | h
      · exact hcon.2 h
      · exact hcon.1 h)]
    simp
  · intro row cost h5 hcost hqty
    unfold parseHKRow
    simp only []
    rw [if_pos h5]
    simp only [hcost]
    rw [if_neg (fun hcon => by
      rcases hqty with h | h
      · exact hcon.2 h
      · exact hcon.1 h)]
    simp
  · intro row cost h6 hcost hqty
    unfold parseFundRow
    simp only []
    rw [if_pos h6]
    simp only [hcost]
    rw [if_neg (fun hcon => by
      rcases hqty with h | h
      · exact hcon.2 h
      · exact hcon.1 h)]
    simp
  · intro row cost h5 hcost hmv hqty
    have hq : usQtyOpt row = some Q.zero := by
      unfold usQtyOpt
      rw [if_neg (fun hcon => by
        rcases hqty with h | h
        · exact hcon.2 h
        · exact hcon.1 h)]
    unfold parseUSRow
    rw [if_pos h5]
    simp only [hcost, hq]
    rcases hmv with h | h | ⟨v, hv⟩
    · rw [if_neg (fun hcon => hcon.2 h)]
      simp
    · rw [if_neg (fun hcon => hcon.1 h)]
      simp
    · have hne1 : usMvCellOf row ≠ [] := by
        intro hc
        rw [hc, parseFloat_nil] at hv
        cases hv
      have hne2 : usMvCellOf row ≠ dashStr := by
        intro hc
        rw [hc, parseFloat_dash] at hv
        cases hv
      rw [if_pos ⟨hne1, hne2⟩]
      simp only [hv]
      simp
  · intro row h5 ⟨q, hq⟩ hmv hcost
    have hc : usCostOpt row = some Q.zero := by
      unfold usCostOpt
      rw [if_neg (fun hcon => by
        rcases hcost with h | h
        · exact hcon.2 h
        · exact hcon.1 h)]
    unfold parseUSRow
    rw [if_pos h5]
    simp only [hc, hq]
    rcases hmv with h | h | ⟨v, hv⟩
    · rw [if_neg (fun hcon => hcon.2 h)]
      simp
    · rw [if_neg (fun hcon => hcon.1 h)]
      simp
    · have hne1 : usMvCellOf row ≠ [] := by
        intro hcc
        rw [hcc, parseFloat_nil] at hv
        cases hv
      have hne2 : usMvCellOf row ≠ dashStr := by
        intro hcc
        rw [hcc, parseFloat_dash] at hv
        cases hv
      rw [if_pos ⟨hne1, hne2⟩]
      simp only [hv]
      simp
  · intro row h5 hcost
    unfold parseARow
    simp only []
    rw [if_pos h5]
    rcases hcost with h | h
    · simp only [h, parseFloat_dash]
    · simp only [h, parseFloat_nil]
  · intro row h5 hcost
    unfold parseHKRow
    simp only []
    rw [if_pos h5]
    rcases hcost with h | h
    · simp only [h, parseFloat_dash]
    · simp only [h, parseFloat_nil]
  · intro row h6 hcost
    unfold parseFundRow
    simp only []
    rw [if_pos h6]
    rcases hcost with h | h
    · simp only [h, parseFloat_dash]
    · simp only [h, parseFloat_nil]

/-- Witness for C6: a dash quantity cell with a parseable cost is retained
with quantity 0 (A-share section), and a dash cost cell with a parseable
quantity is retained with cost 0 (US section). -/
theorem C6_placeholder_coercion_witness :
    (parseARow ("| 600519 | X | SH | 10.5 | - | - | - |".toList)).map
      (fun p => p.2.2.qty) = some Q.zero ∧
    (parseUSRow ("| AAPL | Apple | US | - | 10 | - | - |".toList)).map
      USItem.cost = some Q.zero := by
  constructor
  · exact C6_placeholder_coercion.1
      ("| 600519 | X | SH | 10.5 | - | - | - |".toList) ⟨105, 10⟩
      (by decide) (by decide) (by decide)
  · exact C6_placeholder_coercion.2.2.2.2.1
      ("| AAPL | Apple | US | - | 10 | - | - |".toList)
      (by decide) ⟨⟨10, 1⟩, by decide⟩ (Or.inl (by decide)) (by decide)

end AIA